import Mathlib

/-!
# goda: symbol attribution parser and graph output

A shallow embedding of `parseLine` and of the scan loop of `ParseBinary`
(`internal/weight/nm/measure.go`), and of `escapeID` and the node and edge loops of
`Execute` (`graph/cmd.go`).

* A Go `string` is a sequence of bytes; it is modelled as a `List Nat` whose
  elements are the byte values.  Indices and lengths are byte indices, as in Go.
* A Go `rune` is modelled as a `Nat` (its code point).
* The functions of the Go standard library that the code calls (`strings.Fields`,
  `strings.IndexByte`, `strconv.ParseUint`, ...) are modelled from their documented
  behaviour, each under the name it has in Go.
* A run-time panic (index or slice out of range) is the fault `Fault.panicked`.
* The standard output is the list of the texts written to it, in order.
-/

namespace Goda

/-- A Go string: its bytes, in order. -/
abbrev GoString := List Nat

/-- UTF-8 encoding of one code point, as `utf8.AppendRune` writes it. -/
def encodeRune (r : Nat) : GoString :=
  if r < 0x80 then [r]
  else if r < 0x800 then [0xC0 + r / 64, 0x80 + r % 64]
  else if r < 0x10000 then [0xE0 + r / 4096, 0x80 + r / 64 % 64, 0x80 + r % 64]
  else [0xF0 + r / 262144, 0x80 + r / 4096 % 64, 0x80 + r / 64 % 64, 0x80 + r % 64]

/-- The Go string denoted by a string literal (its UTF-8 bytes). -/
def ofString (s : String) : GoString :=
  s.toList.flatMap fun c => encodeRune c.toNat

/-! ## Package `unicode/utf8` -/

/-- The replacement rune `utf8.RuneError` (U+FFFD). -/
def RuneError : Nat := 0xFFFD

/-- The table `first` of package utf8 together with `acceptRanges`: for a leading byte of a
multi-byte sequence, the length of the sequence and the range accepted for the second
byte; `none` for the bytes marked `xx` (invalid) and for ASCII. -/
def leadInfo (b : Nat) : Option (Nat × Nat × Nat) :=
  if b < 0xC2 then none
  else if b < 0xE0 then some (2, 0x80, 0xBF)
  else if b = 0xE0 then some (3, 0xA0, 0xBF)
  else if b < 0xED then some (3, 0x80, 0xBF)
  else if b = 0xED then some (3, 0x80, 0x9F)
  else if b < 0xF0 then some (3, 0x80, 0xBF)
  else if b = 0xF0 then some (4, 0x90, 0xBF)
  else if b < 0xF4 then some (4, 0x80, 0xBF)
  else if b = 0xF4 then some (4, 0x80, 0x8F)
  else none

/-- The function `utf8.DecodeRuneInString`: the first rune of `s` and its width in bytes;
`(RuneError, 0)` on the empty string and `(RuneError, 1)` on an invalid encoding.
The masks and shifts of the Go code are written with `%` and `*`
(`s0&mask2<<6 | s1&maskx` is `s0 % 32 * 64 + s1 % 64`). -/
def DecodeRuneInString (s : GoString) : Nat × Nat :=
  match s with
  | [] => (RuneError, 0)
  | s0 :: t =>
    if s0 < 0x80 then (s0, 1)
    else
      match leadInfo s0 with
      | none => (RuneError, 1)
      | some (sz, lo, hi) =>
        if s.length < sz then (RuneError, 1)
        else
          match t with
          | [] => (RuneError, 1)
          | s1 :: t1 =>
            if s1 < lo ∨ hi < s1 then (RuneError, 1)
            else if sz ≤ 2 then (s0 % 32 * 64 + s1 % 64, 2)
            else
              match t1 with
              | [] => (RuneError, 1)
              | s2 :: t2 =>
                if s2 < 0x80 ∨ 0xBF < s2 then (RuneError, 1)
                else if sz ≤ 3 then (s0 % 16 * 4096 + s1 % 64 * 64 + s2 % 64, 3)
                else
                  match t2 with
                  | [] => (RuneError, 1)
                  | s3 :: _ =>
                    if s3 < 0x80 ∨ 0xBF < s3 then (RuneError, 1)
                    else (s0 % 8 * 262144 + s1 % 64 * 4096 + s2 % 64 * 64 + s3 % 64, 4)

/-- The function `utf8.RuneStart`: `b&0xC0 != 0x80`. -/
def RuneStart (b : Nat) : Bool := b / 64 % 4 ≠ 2

/-- The backward search of `utf8.DecodeLastRuneInString`:
`for start--; start >= lim; start-- { if RuneStart(s[start]) { break } }`, entered after
`start--` with `n` iterations left before `start` passes `lim`. -/
def lastRuneStart (s : GoString) : Nat → Int → Int
  | 0, start => start
  | n + 1, start =>
    if RuneStart (s.getD start.toNat 0) then start else lastRuneStart s n (start - 1)

/-- The function `utf8.DecodeLastRuneInString`: the last rune of `s` and its width. -/
def DecodeLastRuneInString (s : GoString) : Nat × Nat :=
  if s.length = 0 then (RuneError, 0)
  else
    let r := s.getD (s.length - 1) 0
    if r < 0x80 then (r, 1)
    else
      let lim := s.length - 4
      let start := lastRuneStart s (s.length - 1 - lim) ((s.length : Int) - 2)
      let start := if start < 0 then 0 else start.toNat
      let rs := DecodeRuneInString (s.drop start)
      if start + rs.2 ≠ s.length then (RuneError, 1) else rs

/-! ## Package `unicode` -/

/-- The function `unicode.IsSpace`: the Latin-1 cases of its `switch`, and the table
`White_Space` above Latin-1. -/
def IsSpace (r : Nat) : Bool :=
  if r ≤ 0xFF then
    r = 0x09 ∨ r = 0x0A ∨ r = 0x0B ∨ r = 0x0C ∨ r = 0x0D ∨ r = 0x20 ∨ r = 0x85 ∨ r = 0xA0
  else
    r = 0x1680 ∨ (0x2000 ≤ r ∧ r ≤ 0x200A) ∨ r = 0x2028 ∨ r = 0x2029 ∨ r = 0x202F ∨
      r = 0x205F ∨ r = 0x3000

/-- The function `unicode.IsLetter` on the runes up to `unicode.MaxLatin1`, the only ones
`isSymType` passes to it (`rune(s[0])` of a byte): the entries of the table `properties`
with a letter bit. -/
def IsLetter (r : Nat) : Bool :=
  (0x41 ≤ r ∧ r ≤ 0x5A) ∨ (0x61 ≤ r ∧ r ≤ 0x7A) ∨ r = 0xAA ∨ r = 0xB5 ∨ r = 0xBA ∨
    (0xC0 ≤ r ∧ r ≤ 0xD6) ∨ (0xD8 ≤ r ∧ r ≤ 0xF6) ∨ (0xF8 ≤ r ∧ r ≤ 0xFF)

/-! ## Package `strings` -/

/-- The loop of `strings.FieldsFunc(s, unicode.IsSpace)` over the runes of `s`
(`for end, rune := range s`).  `skip` counts the bytes of the current rune still to be
passed over, and `cur` holds the bytes of the open span (`start >= 0`), if any. -/
def fieldsLoop : GoString → Nat → Option GoString → List GoString
  | [], _, none => []
  | [], _, some t => [t]
  | _ :: rest, skip + 1, none => fieldsLoop rest skip none
  | b :: rest, skip + 1, some t => fieldsLoop rest skip (some (t ++ [b]))
  | b :: rest, 0, cur =>
    let rw := DecodeRuneInString (b :: rest)
    if IsSpace rw.1 then
      match cur with
      | none => fieldsLoop rest (rw.2 - 1) none
      | some t => t :: fieldsLoop rest (rw.2 - 1) none
    else fieldsLoop rest (rw.2 - 1) (some (cur.getD [] ++ [b]))

/-- The function `strings.Fields`: splits `s` around each run of white space characters, as
defined by `unicode.IsSpace`; the result has no empty string. -/
def Fields (s : GoString) : List GoString := fieldsLoop s 0 none

/-- The function `strings.Join`. -/
def Join (elems : List GoString) (sep : GoString) : GoString := sep.intercalate elems

/-- The function `strings.Split` for a separator of one byte. -/
def Split (s : GoString) (sep : Nat) : List GoString := s.splitOn sep

/-- The function `strings.HasPrefix`. -/
def HasPrefix (s pre : GoString) : Bool := pre.isPrefixOf s

/-- The function `strings.IndexByte`: the index of the first `c` in `s`, or `-1`. -/
def IndexByte : GoString → Nat → Int
  | [], _ => -1
  | b :: rest, c =>
    if b = c then 0
    else
      let i := IndexByte rest c
      if i < 0 then -1 else i + 1

/-- The function `strings.LastIndexByte`: the index of the last `c` in `s`, or `-1`. -/
def LastIndexByte : GoString → Nat → Int
  | [], _ => -1
  | b :: rest, c =>
    let i := LastIndexByte rest c
    if 0 ≤ i then i + 1 else if b = c then 0 else -1

/-- The loop of `strings.TrimLeftFunc(s, unicode.IsSpace)`: drops the leading white space
runes of `s`; `skip` counts the bytes of the current rune still to be dropped. -/
def trimLeftLoop : GoString → Nat → GoString
  | [], _ => []
  | _ :: rest, skip + 1 => trimLeftLoop rest skip
  | b :: rest, 0 =>
    let rw := DecodeRuneInString (b :: rest)
    if IsSpace rw.1 then trimLeftLoop rest (rw.2 - 1) else b :: rest

/-- The loop of `strings.TrimRightFunc(s, unicode.IsSpace)`: drops the trailing white space
runes of `s`, found with `utf8.DecodeLastRuneInString`; `n` bounds the iterations. -/
def trimRightLoop : Nat → GoString → GoString
  | 0, s => s
  | n + 1, s =>
    if s.length = 0 then s
    else
      let rw := DecodeLastRuneInString s
      if IsSpace rw.1 then trimRightLoop n (s.take (s.length - rw.2)) else s

/-- The function `strings.TrimSpace`: `s` without its leading and trailing white space, as
defined by Unicode. -/
def TrimSpace (s : GoString) : GoString :=
  let t := trimLeftLoop s 0
  trimRightLoop t.length t

/-! ## Package `strconv` -/

/-- The two errors of package strconv. -/
inductive NumError where
  | errSyntax
  | errRange
  deriving DecidableEq, Repr

/-- The helper `lower` of package strconv, `c | ('x' - 'X')`: sets bit 5 of `c`. -/
def lower (c : Nat) : Nat := if c / 32 % 2 = 0 then c + 32 else c

/-- The digit a byte stands for in the `switch` of `strconv.ParseUint`; `none` is its
`default` case. -/
def digitVal (c : Nat) : Option Nat :=
  if 0x30 ≤ c ∧ c ≤ 0x39 then some (c - 0x30)
  else if 0x61 ≤ lower c ∧ lower c ≤ 0x7A then some (lower c - 0x61 + 10)
  else none

/-- The largest `uint64`. -/
def maxUint64 : Nat := 2 ^ 64 - 1

/-- The digit loop of `strconv.ParseUint(s, base, 64)` for an explicit base, with `n` the
value read so far; arithmetic on `uint64` is written modulo `2^64`. -/
def parseUintLoop (base : Nat) : GoString → Nat → Nat × Option NumError
  | [], n => (n, none)
  | c :: rest, n =>
    match digitVal c with
    | none => (0, some .errSyntax)
    | some d =>
      if d ≥ base then (0, some .errSyntax)
      else if n ≥ maxUint64 / base + 1 then (maxUint64, some .errRange)
      else
        let n := n * base % 2 ^ 64
        let n1 := (n + d) % 2 ^ 64
        if n1 < n ∨ n1 > maxUint64 then (maxUint64, some .errRange)
        else parseUintLoop base rest n1

/-- The function `strconv.ParseUint(s, base, 64)` for a base from 2 to 36: the value and
the error (`none` for `nil`). -/
def ParseUint (s : GoString) (base : Nat) : Nat × Option NumError :=
  if s = [] then (0, some .errSyntax) else parseUintLoop base s 0

/-- Conversion to `int64`: the value modulo `2^64`, in the range of a signed 64-bit
integer. -/
def toInt64 (x : Int) : Int := (x + 2 ^ 63) % 2 ^ 64 - 2 ^ 63

/-- The function `strconv.ParseInt(s, base, 64)` for a base from 2 to 36. -/
def ParseInt (s : GoString) (base : Nat) : Int × Option NumError :=
  match s with
  | [] => (0, some .errSyntax)
  | c :: rest =>
    let neg : Bool := c = 0x2D
    let s1 := if c = 0x2B ∨ c = 0x2D then rest else s
    let r := ParseUint s1 base
    if r.2 = some .errSyntax then (0, r.2)
    else
      let cutoff : Nat := 2 ^ 63
      if !neg && r.1 ≥ cutoff then ((cutoff : Int) - 1, some .errRange)
      else if neg && r.1 > cutoff then (-(cutoff : Int), some .errRange)
      else
        let n := toInt64 r.1
        (if neg then toInt64 (-n) else n, none)

/-! ## Package `nm` -/

/-- The record `Sym`. -/
structure Sym where
  Addr : Nat
  Size : Int
  Code : Nat
  QualifiedName : GoString
  Info : GoString
  Path : List GoString
  Name : GoString
  deriving DecidableEq, Repr

/-- The zero value `&Sym{}`. -/
def Sym.zero : Sym :=
  { Addr := 0, Size := 0, Code := 0, QualifiedName := [], Info := [], Path := [], Name := [] }

/-- The ways `parseLine` can fail: the four errors it returns, and a run-time panic. -/
inductive Fault where
  | invalidSymText
  | typeNotFound
  | invalidAddr
  | invalidSize
  | panicked
  deriving DecidableEq, Repr

/-- The index expression `tokens[i]`, which panics when `i` is out of range. -/
def index (tokens : List GoString) (i : Nat) : Except Fault GoString :=
  match tokens.get? i with
  | some t => .ok t
  | none => .error .panicked

/-- The slice expression `s[lo:hi]`, which panics unless `0 <= lo <= hi <= len(s)`. -/
def slice (s : GoString) (lo hi : Int) : Except Fault GoString :=
  if 0 ≤ lo ∧ lo ≤ hi ∧ hi ≤ s.length then .ok ((s.take hi.toNat).drop lo.toNat)
  else .error .panicked

/-- The closure `isSymType` of `parseLine`:
`len(s) == 1 && unicode.IsLetter(rune(s[0]))`. -/
def isSymType (s : GoString) : Bool :=
  match s with
  | [b] => IsLetter b
  | _ => false

/-- The five field variables of `parseLine`. -/
structure RawFields where
  addrField : GoString
  sizeField : GoString
  typeField : GoString
  nameField : GoString
  infoField : GoString
  deriving DecidableEq, Repr

/-- The `switch` of `parseLine` (lines 84-107) that chooses the layout of the line. -/
def splitFields (tokens : List GoString) : Except Fault RawFields :=
  match index tokens 1 with
  | .error e => .error e
  | .ok t1 =>
    if isSymType t1 then
      match index tokens 0 with
      | .error e => .error e
      | .ok t0 =>
        match (if tokens.length > 2 then index tokens 2 else .ok []) with
        | .error e => .error e
        | .ok name =>
          .ok { addrField := [], sizeField := t0, typeField := t1, nameField := name,
                infoField := if tokens.length > 3 then Join (tokens.drop 3) [0x20] else [] }
    else
      match index tokens 2 with
      | .error e => .error e
      | .ok t2 =>
        if isSymType t2 then
          match index tokens 0 with
          | .error e => .error e
          | .ok t0 =>
            match (if tokens.length > 3 then index tokens 3 else .ok []) with
            | .error e => .error e
            | .ok name =>
              .ok { addrField := t0, sizeField := t1, typeField := t2, nameField := name,
                    infoField := if tokens.length > 4 then Join (tokens.drop 4) [0x20] else [] }
        else .error .typeNotFound

/-- Lines 109-130 of `parseLine`: the address, the size (with the size 4294967296 of an
external symbol replaced by 0) and the code. -/
def parseNumbers (f : RawFields) : Except Fault Sym :=
  match (if f.addrField ≠ [] then
      (match ParseUint f.addrField 16 with
       | (a, none) => Except.ok a
       | (_, some _) => Except.error Fault.invalidAddr)
    else Except.ok 0) with
  | .error e => .error e
  | .ok addr =>
    match (if f.sizeField ≠ [] then
        (match ParseInt f.sizeField 10 with
         | (n, none) => Except.ok (if n = 4294967296 then 0 else n)
         | (_, some _) => Except.error Fault.invalidSize)
      else Except.ok 0) with
    | .error e => .error e
    | .ok size =>
      let code := TrimSpace f.typeField
      .ok { Sym.zero with
            Addr := addr, Size := size,
            Code := if code ≠ [] then (DecodeRuneInString code).1 else 0 }

/-- Lines 139-160 of `parseLine`: the split of a non-empty qualified name into the
package path and the local name. -/
def splitName (sym : Sym) : Except Fault Sym :=
  let q := sym.QualifiedName
  let braceOff := IndexByte q 0x28
  let braceOff := if braceOff < 0 then (q.length : Int) else braceOff
  match slice q 0 braceOff with
  | .error e => .error e
  | .ok head =>
    let slashPos := LastIndexByte head 0x2F
    let slashPos := if slashPos < 0 then 0 else slashPos
    match slice q slashPos braceOff with
    | .error e => .error e
    | .ok mid =>
      let pointOff := IndexByte mid 0x2E
      let pointOff := if pointOff < 0 then 0 else pointOff
      let p := slashPos + pointOff
      if p > 0 then
        match slice q 0 p with
        | .error e => .error e
        | .ok pkg =>
          match slice q (p + 1) q.length with
          | .error e => .error e
          | .ok name => .ok { sym with Path := Split pkg 0x2F, Name := name }
      else .ok { sym with Name := q }

/-- The function `parseLine`. -/
def parseLine (s : GoString) : Except Fault Sym :=
  let tokens := Fields s
  if tokens.length ≤ 2 then .error .invalidSymText
  else
    match splitFields tokens with
    | .error e => .error e
    | .ok f =>
      match parseNumbers f with
      | .error e => .error e
      | .ok sym =>
        let sym := { sym with QualifiedName := f.nameField, Info := f.infoField }
        if sym.QualifiedName = [] then .ok sym else splitName sym

/-- The test of the scan loop of `ParseBinary` (lines 44-53) that lets a record into the
result. -/
def keepSym (sym : Sym) : Bool :=
  if sym.QualifiedName = [] then false
  else if sym.Path.length > 0 && HasPrefix (sym.Path.headD []) (ofString "go.itab.") then false
  else if sym.Path.length > 0 && HasPrefix (sym.Path.headD []) (ofString "type..") then false
  else true

/-- The constant `bufio.MaxScanTokenSize`: the size of the largest buffer of a
`bufio.Scanner`. -/
def MaxScanTokenSize : Nat := 64 * 1024

/-- The errors `scanner.Err()` reports: `bufio.ErrTooLong`, and the error on which the read
of the stream ended, when that is not `io.EOF`. -/
inductive ScanError where
  | errTooLong
  | readFailed
  deriving DecidableEq, Repr

/-- The errors the scan loop of `ParseBinary` returns: `failed to parse` around an error of
`parseLine` (line 42), and `scanning failed` around an error of the scanner (line 59). -/
inductive BatchError where
  | failedToParse (e : Fault)
  | scanningFailed (e : ScanError)
  deriving DecidableEq, Repr

/-- The function `dropCR` of package bufio, which `bufio.ScanLines` applies to every line:
the line without a final carriage return. -/
def dropCR (data : GoString) : GoString :=
  if data.getLast? = some 0x0D then data.dropLast else data

/-- The scan loop of `ParseBinary` (lines 37-62), with `syms` the slice built so far, over
the lines of the stream still to be scanned: each is the bytes between two line feeds, and
`readErr` is the error, if any, on which the read of the stream ends after the last line.
On a line of `MaxScanTokenSize` bytes or more `scanner.Scan()` returns false and
`scanner.Err()` is `bufio.ErrTooLong`, no buffer of the scanner holding such a line up to
its end; on a shorter line `scanner.Text()` is the line without a final carriage return.
The result is the pair `([]*Sym, error)` the function returns. -/
def scanLoop (readErr : Option ScanError) :
    List GoString → List Sym → List Sym × Option BatchError
  | [], syms =>
    match readErr with
    | some e => ([], some (.scanningFailed e))
    | none => (syms, none)
  | line :: rest, syms =>
    if line.length ≥ MaxScanTokenSize then ([], some (.scanningFailed .errTooLong))
    else
      match parseLine (dropCR line) with
      | .error e => ([], some (.failedToParse e))
      | .ok sym =>
        if keepSym sym then scanLoop readErr rest (syms ++ [sym])
        else scanLoop readErr rest syms

/-- The function `ParseBinary` as a function of the lines of the output of `go tool nm`
and of the error, if any, on which the read of that output ends. -/
def ParseBinary (lines : List GoString) (readErr : Option ScanError) :
    List Sym × Option BatchError :=
  scanLoop readErr lines []

/-! ## Package `graph` (`graph/cmd.go`) -/

/-- The loop of `escapeID` over the runes of `s` (`for _, r := range s`), with `d` the bytes
appended so far; `skip` counts the bytes of the current rune still to be passed over. The
conversion `byte(r)` is `r % 256`. -/
def escapeLoop : GoString → Nat → GoString → GoString
  | [], _, d => d
  | _ :: rest, skip + 1, d => escapeLoop rest skip d
  | b :: rest, 0, d =>
    let rw := DecodeRuneInString (b :: rest)
    let r := rw.1
    if 0x61 ≤ r ∧ r ≤ 0x7A then escapeLoop rest (rw.2 - 1) (d ++ [r % 256])
    else if 0x41 ≤ r ∧ r ≤ 0x5A then escapeLoop rest (rw.2 - 1) (d ++ [r % 256])
    else if 0x30 ≤ r ∧ r ≤ 0x39 then escapeLoop rest (rw.2 - 1) (d ++ [r % 256])
    else escapeLoop rest (rw.2 - 1) (d ++ [0x5F])

/-- The function `escapeID`. -/
def escapeID (s : GoString) : GoString := escapeLoop s 0 []

/-- Modelled from the spec: the type of a package node of package `pkg`, which is not
among the sources. A node has an id and the ordered sequence of the ids of its imports;
`dst.ID` for an import `dst` is the id itself. -/
structure Package where
  ID : GoString
  Imports : List GoString
  deriving DecidableEq, Repr

/-- Modelled from the spec: the type of a graph result of package `pkg`, a mapping from id
to package node; `result[id]` is `result id`, with `none` for an absent key. -/
abbrev Result := GoString → Option Package

/-- The text `fmt.Fprintf(os.Stdout, "    %v -> %v;\n", escapeID(src.ID), escapeID(dst.ID))`
writes. -/
def edgeLine (srcID dstID : GoString) : GoString :=
  ofString "    " ++ escapeID srcID ++ ofString " -> " ++ escapeID dstID ++ ofString ";\n"

/-- The inner loop of the edge loop of `Execute` (lines 74-78) over the imports of `src`,
with `out` the texts written to the standard output so far. -/
def importLoop (result : Result) (src : Package) : List GoString → List GoString → List GoString
  | [], out => out
  | dst :: rest, out =>
    if (result dst).isSome then importLoop result src rest (out ++ [edgeLine src.ID dst])
    else importLoop result src rest out

/-- The edge loop of `Execute` (lines 73-79) over the sorted packages. -/
def edgeLoop (result : Result) : List Package → List GoString → List GoString
  | [], out => out
  | src :: rest, out => edgeLoop result rest (importLoop result src src.Imports out)

/-- The text `fmt.Fprintf(os.Stdout, "    %v [label=%q];\n", escapeID(p.ID), s.String())`
writes, where `quoted` is the text `%q` prints for the label that the template step, which
is not among the sources, produced for the package. -/
def nodeLine (id quoted : GoString) : GoString :=
  ofString "    " ++ escapeID id ++ ofString " [label=" ++ quoted ++ ofString "];\n"

/-- The node loop of `Execute` (lines 63-71) over the sorted packages, with `out` the texts
written to the standard output so far and `quoted p` the quoted label of `p`. -/
def nodeLoop (quoted : Package → GoString) : List Package → List GoString → List GoString
  | [], out => out
  | p :: rest, out => nodeLoop quoted rest (out ++ [nodeLine p.ID (quoted p)])

/-! ## Definitions that follow the words of the specification -/

/-- The value of a digit character: `0` to `9`, then the letters, of either case, from ten
on. -/
def digitOf (c : Nat) : Option Nat :=
  if 0x30 ≤ c ∧ c ≤ 0x39 then some (c - 0x30)
  else if 0x61 ≤ c ∧ c ≤ 0x7A then some (c - 0x61 + 10)
  else if 0x41 ≤ c ∧ c ≤ 0x5A then some (c - 0x41 + 10)
  else none

/-- The number denoted by a run of digits in a base, read after the value `n`; `none` when
a character is no digit of the base. -/
def numeralLoop (base : Nat) : GoString → Nat → Option Nat
  | [], n => some n
  | c :: rest, n =>
    match digitOf c with
    | none => none
    | some d => if d < base then numeralLoop base rest (n * base + d) else none

/-- The number denoted by a numeral of a base: a non-empty run of digits of the base. -/
def numeral (base : Nat) (t : GoString) : Option Nat :=
  if t = [] then none else numeralLoop base t 0

/-- The integer denoted by a signed numeral of a base: a numeral with an optional sign
`+` or `-` before it. -/
def signedNumeral (base : Nat) (t : GoString) : Option Int :=
  match t with
  | [] => none
  | c :: rest =>
    if c = 0x2B then (numeral base rest).map fun v => (v : Int)
    else if c = 0x2D then (numeral base rest).map fun v => -(v : Int)
    else (numeral base t).map fun v => (v : Int)

/-- A token is a base-16 numeral that fits an unsigned 64-bit integer. -/
def fitsUint64 (t : GoString) : Prop := ∃ v, numeral 16 t = some v ∧ v < 2 ^ 64

/-- A token is a base-10 numeral that fits a signed 64-bit integer. -/
def fitsInt64 (t : GoString) : Prop :=
  ∃ v, signedNumeral 10 t = some v ∧ -(2 : Int) ^ 63 ≤ v ∧ v < (2 : Int) ^ 63

/-- Token `i` of a line, the empty string when the line has no such token. -/
def token (tokens : List GoString) (i : Nat) : GoString := tokens.getD i []

/-- The size token: token 0 in the layout without address (token 1 is a single letter),
token 1 in the layout with address. -/
def sizeToken (tokens : List GoString) : GoString :=
  if isSymType (token tokens 1) then token tokens 0 else token tokens 1

/-- The lines the error design rejects: fewer than three tokens; no single letter at
token 1 or token 2; the layout with address and an address that is no base-16 numeral of
64 bits; or a size that is no base-10 numeral of 64 bits. -/
def rejected (tokens : List GoString) : Prop :=
  tokens.length < 3 ∨
    (isSymType (token tokens 1) = false ∧ isSymType (token tokens 2) = false) ∨
    (isSymType (token tokens 1) = false ∧ isSymType (token tokens 2) = true ∧
      ¬ fitsUint64 (token tokens 0)) ∨
    ¬ fitsInt64 (sizeToken tokens)

/-- The qualified name up to its call-signature suffix, which starts at the first `(`. -/
def beforeSignature (q : GoString) : GoString := q.takeWhile fun b => b ≠ 0x28

/-- The records the batch contract lists: the qualified name is not empty and the first
path segment, when there is one, starts with neither `go.itab.` nor `type..`. -/
def listed (r : Sym) : Bool :=
  r.QualifiedName ≠ [] &&
    match r.Path with
    | [] => true
    | seg :: _ => !HasPrefix seg (ofString "go.itab.") && !HasPrefix seg (ofString "type..")

/-- No rune of the bytes of `t` that follow the first `skip` is white space: the loop of
`whitespaceFree`, which reads the runes as `range` does. -/
def noSpaceLoop : GoString → Nat → Bool
  | [], _ => true
  | _ :: rest, skip + 1 => noSpaceLoop rest skip
  | b :: rest, 0 =>
    let rw := DecodeRuneInString (b :: rest)
    !IsSpace rw.1 && noSpaceLoop rest (rw.2 - 1)

/-- A token is whitespace-free: none of its runes is white space. -/
def whitespaceFree (t : GoString) : Bool := noSpaceLoop t 0

/-! ## Writing numbers: `strconv.FormatUint` and `strconv.FormatInt` -/

/-- The digit characters of package strconv: `"0123456789abcdefghijklmnopqrstuvwxyz"[d]`. -/
def digitByte (d : Nat) : Nat := if d < 10 then 0x30 + d else 0x61 + (d - 10)

/-- The digit loop of `strconv.FormatUint` (`formatBits`): writes `u` in a base in front of
`acc`, the last digit first (`for u >= b { a[i] = digits[u%b]; u /= b }`, then
`a[i] = digits[u]`); `fuel` bounds the number of digits. -/
def formatBits (base : Nat) : Nat → Nat → GoString → GoString
  | 0, _, acc => acc
  | fuel + 1, u, acc =>
    if u ≥ base then formatBits base fuel (u / base) (digitByte (u % base) :: acc)
    else digitByte u :: acc

/-- An unsigned 64-bit integer written in a base, as `strconv.FormatUint` writes it. -/
def FormatUint (u base : Nat) : GoString := formatBits base 64 u []

/-- A signed 64-bit integer written in a base, as `strconv.FormatInt` writes it. -/
def FormatInt (n : Int) (base : Nat) : GoString :=
  if n < 0 then 0x2D :: FormatUint (-n).toNat base else FormatUint n.toNat base

/-- The line in the layout with address formed from an address written in hexadecimal, a
size written in decimal, a type letter and a name, with single spaces between them. -/
def addrLine (a : Nat) (n : Int) (c : Nat) (name : GoString) : GoString :=
  FormatUint a 16 ++ 0x20 :: (FormatInt n 10 ++ 0x20 :: ([c] ++ 0x20 :: name))

/-! ## Example lines and their records -/

/-- A line in the layout with address, followed by a name and two words of info. -/
def sampleLine : GoString := ofString "ff 16 T pkg/sub.Fn a b"

/-- The record of `sampleLine`. -/
def sampleSym : Sym :=
  { Addr := 255, Size := 16, Code := 0x54, QualifiedName := ofString "pkg/sub.Fn",
    Info := ofString "a b", Path := [ofString "pkg", ofString "sub"], Name := ofString "Fn" }

/-- A line whose qualified name has a `/` and no `.` after it. -/
def slashLine : GoString := ofString "1 T a/b"

/-- The record of `slashLine`. -/
def slashSym : Sym :=
  { Addr := 0, Size := 1, Code := 0x54, QualifiedName := ofString "a/b", Info := [],
    Path := [ofString "a"], Name := ofString "b" }

/-- A line of an interface method table and a line of a type descriptor, as `go tool nm`
prints them. -/
def syntheticLines : List GoString :=
  [ofString "4b2c40 32 R go.itab.*os.File,io.Reader", ofString "4a1f00 8 R type..eq.[2]string"]

/-- The records of `syntheticLines`. -/
def syntheticSyms : List Sym :=
  [{ Addr := 0x4b2c40, Size := 32, Code := 0x52,
     QualifiedName := ofString "go.itab.*os.File,io.Reader", Info := [],
     Path := [ofString "go"], Name := ofString "itab.*os.File,io.Reader" },
   { Addr := 0x4a1f00, Size := 8, Code := 0x52,
     QualifiedName := ofString "type..eq.[2]string", Info := [],
     Path := [ofString "type"], Name := ofString ".eq.[2]string" }]

/-! ## Code points and offsets, in the words of the claims -/

/-- The loop of `runes`: the runes a `range` loop reads from the bytes of `s` that follow
the first `skip`. -/
def runesLoop : GoString → Nat → List Nat
  | [], _ => []
  | _ :: rest, skip + 1 => runesLoop rest skip
  | b :: rest, 0 =>
    let rw := DecodeRuneInString (b :: rest)
    rw.1 :: runesLoop rest (rw.2 - 1)

/-- The code points of a string: the runes a `range` loop over it reads, with
`utf8.RuneError` for each byte that starts no valid encoding. -/
def runes (s : GoString) : List Nat := runesLoop s 0

/-- A code point in `[A-Za-z0-9]`. -/
def isAlnum (r : Nat) : Bool :=
  (0x41 ≤ r ∧ r ≤ 0x5A) ∨ (0x61 ≤ r ∧ r ≤ 0x7A) ∨ (0x30 ≤ r ∧ r ≤ 0x39)

/-- The character that stands for a code point in an escaped identifier: the code point
itself in `[A-Za-z0-9]`, and `_` otherwise. -/
def escapeRune (r : Nat) : Nat := if isAlnum r then r else 0x5F

/-- The part of a string after its last `/`, all of it when it has none. -/
def lastSegment (h : GoString) : GoString :=
  (h.reverse.takeWhile fun b => b ≠ 0x2F).reverse

/-- The offset `braceOff` of `parseLine` (lines 139-142). -/
def braceOff (q : GoString) : Int :=
  if IndexByte q 0x28 < 0 then (q.length : Int) else IndexByte q 0x28

/-- The offset `slashPos` of `parseLine` (lines 144-147), with the slice `[:braceOff]` taken
as the bytes before `braceOff`. -/
def slashPos (q : GoString) : Int :=
  if LastIndexByte (q.take (braceOff q).toNat) 0x2F < 0 then 0
  else LastIndexByte (q.take (braceOff q).toNat) 0x2F

/-- The offset `pointOff` of `parseLine` (lines 149-152), with the slice
`[slashPos:braceOff]` taken as the bytes from `slashPos` to `braceOff`. -/
def pointOff (q : GoString) : Int :=
  if IndexByte ((q.take (braceOff q).toNat).drop (slashPos q).toNat) 0x2E < 0 then 0
  else IndexByte ((q.take (braceOff q).toNat).drop (slashPos q).toNat) 0x2E

/-- A line in the layout without address that has the qualified name of `sampleLine`. -/
def sampleLine2 : GoString := ofString "7 D pkg/sub.Fn"

/-- The record of `sampleLine2`. -/
def sampleSym2 : Sym :=
  { Addr := 0, Size := 7, Code := 0x44, QualifiedName := ofString "pkg/sub.Fn",
    Info := [], Path := [ofString "pkg", ofString "sub"], Name := ofString "Fn" }

/-- Two packages whose ids differ in one character that `escapeID` replaces. -/
def clashPackages : List Package :=
  [{ ID := ofString "a.b", Imports := [] }, { ID := ofString "a/b", Imports := [] }]

/-- A line of three tokens in the layout with address: its record has no name. -/
def bareLine : GoString := ofString "ff 16 T"

/-- The record of `bareLine`. -/
def bareSym : Sym :=
  { Addr := 255, Size := 16, Code := 0x54, QualifiedName := [], Info := [], Path := [],
    Name := [] }

/-- A line of an interface method table whose name has a `/` after the prefix. -/
def itabLine : GoString := ofString "4b2c40 32 R go.itab.*net/http.Client,io.Closer"

/-- The record of `itabLine`. -/
def itabSym : Sym :=
  { Addr := 0x4b2c40, Size := 32, Code := 0x52,
    QualifiedName := ofString "go.itab.*net/http.Client,io.Closer", Info := [],
    Path := [ofString "go.itab.*net", ofString "http"], Name := ofString "Client,io.Closer" }

/-- A line of a type descriptor whose name has a `/` after the prefix. -/
def typeLine : GoString := ofString "4a1f00 8 R type..eq.net/http.Client"

/-- The record of `typeLine`. -/
def typeSym : Sym :=
  { Addr := 0x4a1f00, Size := 8, Code := 0x52,
    QualifiedName := ofString "type..eq.net/http.Client", Info := [],
    Path := [ofString "type..eq.net", ofString "http"], Name := ofString "Client" }

/-- Five lines that parse, three of which the scan loop drops. -/
def mixedLines : List GoString := [sampleLine, bareLine, itabLine, typeLine, slashLine]

/-- The records of `mixedLines`. -/
def mixedSyms : List Sym := [sampleSym, bareSym, itabSym, typeSym, slashSym]

/-- A line in the layout with address whose name has 65536 bytes. -/
def longLine : GoString := addrLine 255 16 0x54 (List.replicate 65536 0x61)

/-! ## Numerals: `strconv.ParseUint` and `strconv.ParseInt` read what a numeral denotes -/

theorem digitVal_eq_digitOf (c : Nat) : digitVal c = digitOf c := by
  unfold digitVal digitOf lower
  split_ifs <;> first | rfl | omega

theorem digitOf_lt (c d : Nat) (h : digitOf c = some d) : d < 36 := by
  unfold digitOf at h
  split_ifs at h <;> simp at h <;> omega

theorem numeralLoop_ge (base : Nat) (l : GoString) (n v : Nat)
    (h : numeralLoop base l n = some v) : n ≤ v := by
  induction l generalizing n with
  | nil => simp [numeralLoop] at h; omega
  | cons c rest ih =>
    simp only [numeralLoop] at h
    split at h
    · cases h
    · split_ifs at h with hd
      have h1 := ih _ h
      have h2 : n * 1 ≤ n * base := Nat.mul_le_mul_left n (by omega)
      omega

theorem parseUintLoop_ok_iff (base : Nat) (hb : 0 < base) (l : GoString) (n v : Nat)
    (hn : n < 2 ^ 64) :
    parseUintLoop base l n = (v, none) ↔ (numeralLoop base l n = some v ∧ v < 2 ^ 64) := by
  induction l generalizing n with
  | nil =>
    simp only [parseUintLoop, numeralLoop, Prod.mk.injEq, and_true, Option.some.injEq]
    constructor
    · rintro rfl; exact ⟨rfl, hn⟩
    · rintro ⟨rfl, _⟩; rfl
  | cons c rest ih =>
    simp only [parseUintLoop, numeralLoop, digitVal_eq_digitOf]
    cases hd : digitOf c with
    | none => simp
    | some d =>
      simp only []
      have hd36 := digitOf_lt c d hd
      by_cases hdb : d < base
      · have hge : ¬ d ≥ base := by omega
        simp only [hge, if_false, hdb, if_true]
        by_cases hcut : n ≥ maxUint64 / base + 1
        · simp only [hcut, if_true]
          have h1 : maxUint64 < n * base := (Nat.div_lt_iff_lt_mul hb).mp (by omega)
          constructor
          · intro h; simp at h
          · rintro ⟨h, hv⟩
            have := numeralLoop_ge _ _ _ _ h
            simp only [maxUint64] at h1
            omega
        · simp only [hcut, if_false]
          have h1 : n * base ≤ maxUint64 :=
            (Nat.le_div_iff_mul_le hb).mp (by omega)
          simp only [maxUint64] at h1 ⊢
          generalize n * base = x at h1 ⊢
          by_cases hov : x + d < 2 ^ 64
          · have e1 : x % 2 ^ 64 = x := Nat.mod_eq_of_lt (by omega)
            have e2 : (x + d) % 2 ^ 64 = x + d := Nat.mod_eq_of_lt hov
            have hno : ¬ (x + d < x ∨ x + d > 2 ^ 64 - 1) := by omega
            simp only [e1, e2, hno, if_false]
            exact ih (x + d) hov
          · have e1 : x % 2 ^ 64 = x := Nat.mod_eq_of_lt (by omega)
            have hyes : (x + d) % 2 ^ 64 < x ∨ (x + d) % 2 ^ 64 > 2 ^ 64 - 1 := by omega
            simp only [e1, hyes, if_true]
            constructor
            · intro h; simp at h
            · rintro ⟨h, hv⟩
              have := numeralLoop_ge _ _ _ _ h
              omega
      · have hge : d ≥ base := by omega
        simp [hge, hdb]

theorem parseUintLoop_err (base : Nat) (l : GoString) (n : Nat) (e : NumError) :
    (parseUintLoop base l n).2 = some e →
      e = .errSyntax ∨ (parseUintLoop base l n).1 = maxUint64 := by
  induction l generalizing n with
  | nil => simp [parseUintLoop]
  | cons c rest ih =>
    simp only [parseUintLoop]
    split
    · simp; intro h; exact Or.inl h.symm
    · split_ifs
      · simp; intro h; exact Or.inl h.symm
      · simp
      · simp
      · exact ih _

/-- `strconv.ParseUint` succeeds with `v` exactly on the numerals of the base that denote
`v` and fit 64 bits. -/
theorem ParseUint_ok_iff (base : Nat) (hb : 0 < base) (t : GoString) (v : Nat) :
    ParseUint t base = (v, none) ↔ (numeral base t = some v ∧ v < 2 ^ 64) := by
  unfold ParseUint numeral
  by_cases ht : t = []
  · simp [ht]
  · simp only [ht, if_false]
    exact parseUintLoop_ok_iff base hb t 0 v (by norm_num)

theorem ParseUint_err (base : Nat) (t : GoString) (e : NumError) :
    (ParseUint t base).2 = some e → e = .errSyntax ∨ (ParseUint t base).1 = maxUint64 := by
  unfold ParseUint
  split_ifs
  · simp; intro h; exact Or.inl h.symm
  · exact parseUintLoop_err base t 0 e

theorem ParseUint_none_iff (base : Nat) (hb : 0 < base) (t : GoString) :
    (ParseUint t base).2 = none ↔ ∃ v, numeral base t = some v ∧ v < 2 ^ 64 := by
  constructor
  · intro h
    refine ⟨(ParseUint t base).1, (ParseUint_ok_iff base hb t _).mp ?_⟩
    rw [← h]
  · rintro ⟨v, hv⟩
    rw [(ParseUint_ok_iff base hb t v).mpr hv]

theorem ParseInt_tail (base : Nat) (hb : 0 < base) (s1 : GoString) (neg : Bool) (v : Int) :
    (if (ParseUint s1 base).2 = some NumError.errSyntax then ((0 : Int), (ParseUint s1 base).2)
      else
        if (!neg && decide ((ParseUint s1 base).1 ≥ 2 ^ 63)) = true then
          (((2 ^ 63 : Nat) : Int) - 1, some NumError.errRange)
        else
          if (neg && decide ((ParseUint s1 base).1 > 2 ^ 63)) = true then
            (-((2 ^ 63 : Nat) : Int), some NumError.errRange)
          else
            (if neg = true then toInt64 (-toInt64 (ParseUint s1 base).1)
              else toInt64 (ParseUint s1 base).1, none)) = (v, none) ↔
      ∃ u, numeral base s1 = some u ∧ v = (if neg = true then -(u : Int) else u) ∧
        -(2 : Int) ^ 63 ≤ v ∧ v < (2 : Int) ^ 63 := by
  cases hr : (ParseUint s1 base).2 with
  | some e =>
    have hno : ¬ ∃ u, numeral base s1 = some u ∧ u < 2 ^ 64 := by
      rw [← ParseUint_none_iff base hb, hr]; simp
    have hL : ¬ ((if some e = some NumError.errSyntax then ((0 : Int), some e)
      else
        if (!neg && decide ((ParseUint s1 base).1 ≥ 2 ^ 63)) = true then
          (((2 ^ 63 : Nat) : Int) - 1, some NumError.errRange)
        else
          if (neg && decide ((ParseUint s1 base).1 > 2 ^ 63)) = true then
            (-((2 ^ 63 : Nat) : Int), some NumError.errRange)
          else
            (if neg = true then toInt64 (-toInt64 (ParseUint s1 base).1)
              else toInt64 (ParseUint s1 base).1, none)) = (v, none)) := by
      rcases ParseUint_err base s1 e hr with he | hm
      · simp [he]
      · have hne : ¬ some e = some NumError.errSyntax ∨ True := Or.inr trivial
        rw [hm]
        cases neg <;> simp [maxUint64] <;> split_ifs <;> simp
    constructor
    · intro h; exact absurd h hL
    · rintro ⟨u, hu, hv, h1, h2⟩
      exfalso; apply hno
      refine ⟨u, hu, ?_⟩
      cases neg <;> simp at hv <;> omega
  | none =>
    obtain ⟨hu, hlt⟩ := (ParseUint_ok_iff base hb s1 (ParseUint s1 base).1).mp (by rw [← hr])
    generalize (ParseUint s1 base).1 = u at hu hlt
    simp only [hu, Option.some.injEq, exists_eq_left', reduceCtorEq, if_false]
    cases neg
    · simp only [Bool.not_false, Bool.true_and, decide_eq_true_eq, Bool.false_and,
        Bool.false_eq_true, if_false]
      by_cases h : u ≥ 2 ^ 63
      · simp only [h, if_true]
        constructor
        · intro h; simp at h
        · rintro ⟨rfl, h1, h2⟩; omega
      · simp only [h, if_false, Prod.mk.injEq, and_true, toInt64]
        constructor
        · rintro rfl; omega
        · rintro ⟨rfl, h1, h2⟩; omega
    · simp only [Bool.not_true, Bool.false_and, Bool.false_eq_true, if_false, Bool.true_and,
        decide_eq_true_eq, if_true]
      by_cases h : u > 2 ^ 63
      · simp only [h, if_true]
        constructor
        · intro h; simp at h
        · rintro ⟨rfl, h1, h2⟩; omega
      · simp only [h, if_false, Prod.mk.injEq, and_true, toInt64]
        constructor
        · rintro rfl; omega
        · rintro ⟨rfl, h1, h2⟩; omega

theorem ParseInt_ok_iff (base : Nat) (hb : 0 < base) (t : GoString) (v : Int) :
    ParseInt t base = (v, none) ↔
      (signedNumeral base t = some v ∧ -(2 : Int) ^ 63 ≤ v ∧ v < (2 : Int) ^ 63) := by
  cases t with
  | nil => simp [ParseInt, signedNumeral]
  | cons c rest =>
    simp only [ParseInt, signedNumeral]
    rw [ParseInt_tail base hb]
    by_cases h1 : c = 0x2B
    · subst h1
      cases hn : numeral base rest with
      | none => simp [hn]
      | some u => simp [hn]; omega
    · by_cases h2 : c = 0x2D
      · subst h2
        cases hn : numeral base rest with
      | none => simp [hn]
      | some u => simp [hn]; omega
      · cases hn : numeral base (c :: rest) with
        | none => simp [hn, h1, h2]
        | some u => simp [hn, h1, h2]; omega

theorem ParseInt_none_iff (t : GoString) :
    (ParseInt t 10).2 = none ↔ fitsInt64 t := by
  unfold fitsInt64
  constructor
  · intro h
    refine ⟨(ParseInt t 10).1, (ParseInt_ok_iff 10 (by norm_num) t _).mp ?_⟩
    rw [← h]
  · rintro ⟨v, hv⟩
    rw [(ParseInt_ok_iff 10 (by norm_num) t v).mpr hv]

theorem ParseUint_none_iff_fits (t : GoString) :
    (ParseUint t 16).2 = none ↔ fitsUint64 t :=
  ParseUint_none_iff 16 (by norm_num) t

/-! ## Tokens: `strings.Fields` -/

theorem leadInfo_some (b sz lo hi : Nat) (h : leadInfo b = some (sz, lo, hi)) :
    2 ≤ sz ∧ sz ≤ 4 ∧ 0x80 ≤ lo := by
  unfold leadInfo at h
  split_ifs at h <;> simp at h <;> omega

theorem decode_width_le (u : GoString) : (DecodeRuneInString u).2 ≤ u.length := by
  unfold DecodeRuneInString
  repeat' split
  all_goals simp_all

theorem decode_width_pos (b : Nat) (u : GoString) : 1 ≤ (DecodeRuneInString (b :: u)).2 := by
  unfold DecodeRuneInString
  repeat' split
  all_goals simp_all

theorem decode_append_space (u : GoString) (hu : u ≠ []) (rest : GoString) :
    DecodeRuneInString (u ++ 0x20 :: rest) = DecodeRuneInString u := by
  rcases u with _ | ⟨b0, _ | ⟨b1, _ | ⟨b2, _ | ⟨b3, u⟩⟩⟩⟩
  · exact absurd rfl hu
  all_goals
    by_cases h0 : b0 < 0x80
    · simp [DecodeRuneInString, h0]
    · cases hl : leadInfo b0 with
      | none => simp [DecodeRuneInString, h0, hl]
      | some p =>
        obtain ⟨sz, lo, hi⟩ := p
        have := leadInfo_some b0 sz lo hi hl
        simp only [DecodeRuneInString, List.cons_append, List.nil_append, h0, if_false, hl,
          List.length_cons, List.length_append, List.length_nil]
        split_ifs <;> first | rfl | omega

theorem fieldsLoop_ne_nil (s : GoString) (skip : Nat) (cur : Option GoString)
    (hc : ∀ c, cur = some c → c ≠ []) : ∀ t ∈ fieldsLoop s skip cur, t ≠ [] := by
  induction s generalizing skip cur with
  | nil =>
    cases cur with
    | none => simp [fieldsLoop]
    | some c => simpa [fieldsLoop] using hc c rfl
  | cons b rest ih =>
    cases skip with
    | succ k =>
      cases cur with
      | none => simpa [fieldsLoop] using ih k none (by simp)
      | some c => simpa [fieldsLoop] using ih k (some (c ++ [b])) (by simp)
    | zero =>
      simp only [fieldsLoop]
      split_ifs
      · cases cur with
        | none => simpa using ih _ none (by simp)
        | some c =>
          intro t ht
          rcases List.mem_cons.mp ht with rfl | ht
          · exact hc _ rfl
          · exact ih _ none (by simp) t ht
      · exact ih _ _ (by simp)

/-- No token of `strings.Fields` is empty. -/
theorem Fields_ne_nil (s : GoString) : ∀ t ∈ Fields s, t ≠ [] :=
  fieldsLoop_ne_nil s 0 none (by simp)

theorem fieldsLoop_token (t rest : GoString) (skip : Nat) (c : GoString)
    (hs : skip ≤ t.length) (hns : noSpaceLoop t skip = true) :
    fieldsLoop (t ++ 0x20 :: rest) skip (some c) = (c ++ t) :: fieldsLoop rest 0 none := by
  induction t generalizing skip c with
  | nil =>
    have : skip = 0 := by simpa using hs
    subst this
    simp [fieldsLoop, DecodeRuneInString, IsSpace]
  | cons b t ih =>
    cases skip with
    | succ k =>
      show fieldsLoop (b :: (t ++ 0x20 :: rest)) (k + 1) (some c) = _
      simp only [fieldsLoop]
      rw [ih k _ (by simpa using hs) (by simpa [noSpaceLoop] using hns)]
      simp
    | zero =>
      simp only [noSpaceLoop, Bool.and_eq_true, Bool.not_eq_true', ] at hns
      have hd := decode_append_space (b :: t) (by simp) rest
      simp only [List.cons_append] at hd
      show fieldsLoop (b :: (t ++ 0x20 :: rest)) 0 (some c) = _
      simp only [fieldsLoop, hd, hns.1, Bool.false_eq_true, if_false]
      have hw := decode_width_le (b :: t)
      rw [ih _ _ (by simp at hw; omega) hns.2]
      simp

theorem fieldsLoop_last (t : GoString) (skip : Nat) (c : GoString)
    (hns : noSpaceLoop t skip = true) :
    fieldsLoop t skip (some c) = [c ++ t] := by
  induction t generalizing skip c with
  | nil => simp [fieldsLoop]
  | cons b t ih =>
    cases skip with
    | succ k =>
      simp only [fieldsLoop]
      rw [ih k _ (by simpa [noSpaceLoop] using hns)]
      simp
    | zero =>
      simp only [noSpaceLoop, Bool.and_eq_true, Bool.not_eq_true'] at hns
      simp only [fieldsLoop, hns.1, Bool.false_eq_true, if_false]
      rw [ih _ _ hns.2]
      simp

/-- A non-empty whitespace-free token followed by a space is the first token of the
line. -/
theorem Fields_token (t rest : GoString) (ht : t ≠ []) (hns : whitespaceFree t = true) :
    Fields (t ++ 0x20 :: rest) = t :: Fields rest := by
  cases t with
  | nil => exact absurd rfl ht
  | cons b t =>
    unfold whitespaceFree at hns
    simp only [noSpaceLoop, Bool.and_eq_true, Bool.not_eq_true'] at hns
    have hd := decode_append_space (b :: t) (by simp) rest
    simp only [List.cons_append] at hd
    have hw := decode_width_le (b :: t)
    show fieldsLoop (b :: (t ++ 0x20 :: rest)) 0 none = _
    simp only [fieldsLoop, hd, hns.1, Bool.false_eq_true, if_false]
    rw [fieldsLoop_token t rest _ _ (by simp at hw; omega) hns.2]
    simp [Fields]

/-- A whitespace-free token alone is the only token of the line, if it is not empty. -/
theorem Fields_last (t : GoString) (hns : whitespaceFree t = true) :
    Fields t = if t = [] then [] else [t] := by
  cases t with
  | nil => simp [Fields, fieldsLoop]
  | cons b t =>
    unfold whitespaceFree at hns
    simp only [noSpaceLoop, Bool.and_eq_true, Bool.not_eq_true'] at hns
    simp only [Fields, fieldsLoop, hns.1, Bool.false_eq_true, if_false]
    rw [fieldsLoop_last t _ _ hns.2]
    simp

/-! ## Trailing white space: the iteration bound of `trimRightLoop` -/

theorem lastRuneStart_le (s : GoString) (n : Nat) (start : Int) :
    lastRuneStart s n start ≤ start := by
  induction n generalizing start with
  | zero => simp [lastRuneStart]
  | succ n ih =>
    simp only [lastRuneStart]
    split_ifs
    · exact le_refl _
    · have := ih (start - 1)
      omega

theorem decodeLast_width_pos (s : GoString) (h : s ≠ []) :
    1 ≤ (DecodeLastRuneInString s).2 := by
  have hlen : 0 < s.length := List.length_pos.mpr h
  have hst := lastRuneStart_le s (s.length - 1 - (s.length - 4)) ((s.length : Int) - 2)
  unfold DecodeLastRuneInString
  simp only [Nat.ne_of_gt hlen, if_false]
  split_ifs with h1 h2 h3 h4
  · exact le_refl _
  · exact le_refl _
  · simp only [not_not] at h2
    omega
  · exact le_refl _
  · simp only [not_not] at h4
    omega

/-- The bound `len(s)` on the iterations of `trimRightLoop` is never reached before the
loop ends: every iteration that goes on drops at least one byte. -/
theorem trimRightLoop_fuel (n : Nat) (s : GoString) (h : s.length ≤ n) :
    trimRightLoop n s = trimRightLoop s.length s := by
  induction n using Nat.strong_induction_on generalizing s with
  | _ n ih =>
    cases n with
    | zero =>
      have : s.length = 0 := by omega
      rw [this]
    | succ n =>
      cases s with
      | nil => simp [trimRightLoop]
      | cons b t =>
        have hw := decodeLast_width_pos (b :: t) (by simp)
        simp only [List.length_cons, trimRightLoop, Nat.add_one_ne_zero, if_false]
        split_ifs
        · have hl : (List.take (t.length + 1 - (DecodeLastRuneInString (b :: t)).2)
              (b :: t)).length ≤ t.length := by
            simp only [List.length_take, List.length_cons]
            omega
          simp only [List.length_cons] at h
          rw [ih n (by omega) _ (by omega), ih t.length (by omega) _ hl]
        · rfl

/-! ## The split of the qualified name -/

theorem IndexByte_spec (s : GoString) (c : Nat) :
    (IndexByte s c = -1 ∧ c ∉ s) ∨
      ∃ i : Nat, IndexByte s c = (i : Int) ∧ i < s.length ∧ s.get? i = some c ∧
        c ∉ s.take i := by
  induction s with
  | nil => left; simp [IndexByte]
  | cons b rest ih =>
    by_cases hb : b = c
    · right; exact ⟨0, by simp [IndexByte, hb]⟩
    · rcases ih with ⟨h1, h2⟩ | ⟨i, h1, h2, h3, h4⟩
      · left; simp [IndexByte, hb, h1, h2, Ne.symm hb]
      · right
        refine ⟨i + 1, ?_, by simpa using h2, by simpa using h3, ?_⟩
        · simp only [IndexByte, hb, if_false, h1]
          have : ¬ ((i : Int) < 0) := by omega
          simp [this]
        · simp [List.take_succ_cons, Ne.symm hb, h4]

theorem LastIndexByte_spec (s : GoString) (c : Nat) :
    (LastIndexByte s c = -1 ∧ c ∉ s) ∨
      ∃ i : Nat, LastIndexByte s c = (i : Int) ∧ i < s.length ∧ s.get? i = some c ∧
        c ∉ s.drop (i + 1) := by
  induction s with
  | nil => left; simp [LastIndexByte]
  | cons b rest ih =>
    rcases ih with ⟨h1, h2⟩ | ⟨i, h1, h2, h3, h4⟩
    · by_cases hb : b = c
      · right; exact ⟨0, by simp [LastIndexByte, hb, h1, h2]⟩
      · left; simp [LastIndexByte, hb, h1, h2, Ne.symm hb]
    · right
      refine ⟨i + 1, ?_, by simpa using h2, by simpa using h3, by simpa using h4⟩
      simp only [LastIndexByte, h1]
      have : (0 : Int) ≤ (i : Int) := by omega
      simp [this]

theorem slice_ok (s : GoString) (lo hi : Nat) (h1 : lo ≤ hi) (h2 : hi ≤ s.length) :
    slice s (lo : Int) (hi : Int) = .ok ((s.take hi).drop lo) := by
  unfold slice
  have : (0 : Int) ≤ (lo : Int) ∧ (lo : Int) ≤ (hi : Int) ∧ (hi : Int) ≤ (s.length : Int) := by
    omega
  simp [this]

theorem take_get_drop (s : GoString) (p : Nat) (c : Nat) (h : s.get? p = some c) :
    s = s.take p ++ c :: s.drop (p + 1) := by
  have hp : p < s.length := by
    rcases Nat.lt_or_ge p s.length with h1 | h1
    · exact h1
    · rw [List.get?_eq_none.mpr h1] at h; cases h
  have e : s.get? p = some s[p] := by simp [List.get?_eq_getElem?, hp]
  rw [e] at h
  cases h
  conv_lhs => rw [← List.take_append_drop p s]
  rw [List.drop_eq_getElem_cons hp]

theorem beforeSignature_take (q : GoString) :
    ∃ b : Nat, (if IndexByte q 0x28 < 0 then (q.length : Int) else IndexByte q 0x28) = (b : Int) ∧
      b ≤ q.length ∧ q.take b = beforeSignature q := by
  induction q with
  | nil => exact ⟨0, by simp [IndexByte], by simp, by simp [beforeSignature]⟩
  | cons c rest ih =>
    obtain ⟨b, hb, hle, ht⟩ := ih
    by_cases hc : c = 0x28
    · exact ⟨0, by simp [IndexByte, hc], by simp, by simp [beforeSignature, hc]⟩
    · refine ⟨b + 1, ?_, by simpa using hle, ?_⟩
      · simp only [IndexByte, hc, if_false]
        by_cases hi : IndexByte rest 0x28 < 0
        · simp only [hi, if_true] at hb ⊢
          simp only [List.length_cons, Nat.cast_add, Nat.cast_one]
          have : ((-1 : Int) < 0) := by omega
          simp only [this, if_true]
          omega
        · simp only [hi, if_false] at hb ⊢
          have : ¬ (IndexByte rest 0x28 + 1 < 0) := by omega
          simp only [this, if_false]
          push_cast
          omega
      · simp only [beforeSignature] at ht ⊢
        simp [List.take_succ_cons, List.takeWhile_cons, hc, ht]

/-- The split point `p` of `splitName`: the name is split at byte `p` of the qualified
name when `p > 0`, and that byte is the first `.` after the last `/` before the signature,
or that last `/` when no `.` follows it. -/
theorem splitName_point (sym : Sym) :
    ∃ p : Nat,
      splitName sym =
        .ok (if p = 0 then { sym with Name := sym.QualifiedName }
          else { sym with Path := Split (sym.QualifiedName.take p) 0x2F,
                          Name := sym.QualifiedName.drop (p + 1) }) ∧
      (0 < p → p < (beforeSignature sym.QualifiedName).length ∧
        (sym.QualifiedName.get? p = some 0x2E ∨
          (sym.QualifiedName.get? p = some 0x2F ∧
            0x2E ∉ (beforeSignature sym.QualifiedName).drop p))) := by
  obtain ⟨b, hb, hble, htake⟩ := beforeSignature_take sym.QualifiedName
  have hlen : (sym.QualifiedName.take b).length = b := by simp [hble]
  obtain ⟨sp, hsp, hsple, hspq⟩ : ∃ sp : Nat,
      (if LastIndexByte (sym.QualifiedName.take b) 0x2F < 0 then (0 : Int)
        else LastIndexByte (sym.QualifiedName.take b) 0x2F) = (sp : Int) ∧ sp ≤ b ∧
      (0 < sp → sp < b ∧ sym.QualifiedName.get? sp = some 0x2F) := by
    rcases LastIndexByte_spec (sym.QualifiedName.take b) 0x2F with ⟨h, -⟩ | ⟨i, h, hi, hg, -⟩
    · exact ⟨0, by simp [h], by omega, by omega⟩
    · rw [hlen] at hi
      refine ⟨i, ?_, by omega, fun _ => ⟨hi, ?_⟩⟩
      · have : ¬ ((i : Int) < 0) := by omega
        simp [h, this]
      · rw [List.get?_eq_getElem?, List.getElem?_take_of_lt hi] at hg
        rw [List.get?_eq_getElem?, hg]
  have hmid : ((sym.QualifiedName.take b).drop sp).length = b - sp := by simp [hble]
  obtain ⟨k, hk, hkq⟩ : ∃ k : Nat,
      (if IndexByte ((sym.QualifiedName.take b).drop sp) 0x2E < 0 then (0 : Int)
        else IndexByte ((sym.QualifiedName.take b).drop sp) 0x2E) = (k : Int) ∧
      ((k = 0 ∧ 0x2E ∉ (sym.QualifiedName.take b).drop sp) ∨
        (sp + k < b ∧ sym.QualifiedName.get? (sp + k) = some 0x2E)) := by
    rcases IndexByte_spec ((sym.QualifiedName.take b).drop sp) 0x2E with
      ⟨h, hn⟩ | ⟨i, h, hi, hg, -⟩
    · exact ⟨0, by simp [h], Or.inl ⟨rfl, hn⟩⟩
    · rw [hmid] at hi
      have hi2 : sp + i < b := by omega
      refine ⟨i, ?_, Or.inr ⟨hi2, ?_⟩⟩
      · have : ¬ ((i : Int) < 0) := by omega
        simp [h, this]
      · rw [List.get?_eq_getElem?, List.getElem?_drop, List.getElem?_take_of_lt hi2] at hg
        rw [List.get?_eq_getElem?, hg]
  refine ⟨sp + k, ?_, ?_⟩
  · unfold splitName
    simp only [hb]
    have s1 : slice sym.QualifiedName 0 (b : Int) = .ok (sym.QualifiedName.take b) := by
      have := slice_ok sym.QualifiedName 0 b (by omega) hble
      simpa using this
    simp only [s1, hsp]
    rw [slice_ok sym.QualifiedName sp b hsple hble]
    simp only [hk]
    by_cases hp : sp + k = 0
    · have : ¬ ((sp : Int) + (k : Int) > 0) := by omega
      simp only [this, if_false, hp, if_true]
    · have hpos : ((sp : Int) + (k : Int) > 0) := by omega
      simp only [hpos, if_true, hp, if_false]
      have hplt : sp + k < b := by
        rcases hkq with ⟨hk0, -⟩ | ⟨h, -⟩
        · have := hspq (by omega); omega
        · exact h
      have s3 : slice sym.QualifiedName 0 ((sp : Int) + (k : Int)) =
          .ok (sym.QualifiedName.take (sp + k)) := by
        have := slice_ok sym.QualifiedName 0 (sp + k) (by omega) (by omega)
        simpa using this
      have s4 : slice sym.QualifiedName ((sp : Int) + (k : Int) + 1)
          (sym.QualifiedName.length : Int) = .ok (sym.QualifiedName.drop (sp + k + 1)) := by
        have := slice_ok sym.QualifiedName (sp + k + 1) sym.QualifiedName.length (by omega)
          (le_refl _)
        simpa using this
      simp only [s3, s4]
  · intro hp
    rw [← htake, hlen]
    rcases hkq with ⟨hk0, hn⟩ | ⟨h, hg⟩
    · have := hspq (by omega)
      subst hk0
      exact ⟨this.1, Or.inr ⟨this.2, hn⟩⟩
    · exact ⟨h, Or.inl hg⟩

theorem splitName_spec (sym : Sym) :
    ∃ path name, splitName sym = .ok { sym with Path := path, Name := name } ∧
      ((path = sym.Path ∧ name = sym.QualifiedName) ∨
        (path ≠ [] ∧
          (sym.QualifiedName = Join path [0x2F] ++ 0x2E :: name ∨
            (sym.QualifiedName = Join path [0x2F] ++ 0x2F :: name ∧
              0x2E ∉ (beforeSignature sym.QualifiedName).drop (Join path [0x2F]).length)))) := by
  obtain ⟨p, hs, hp⟩ := splitName_point sym
  by_cases h0 : p = 0
  · simp only [h0, if_true] at hs
    exact ⟨_, _, hs, Or.inl ⟨rfl, rfl⟩⟩
  · simp only [h0, if_false] at hs
    obtain ⟨hlt, hsep⟩ := hp (by omega)
    have hj : Join (Split (sym.QualifiedName.take p) 0x2F) [0x2F] = sym.QualifiedName.take p := by
      unfold Split Join
      rw [List.intercalate_splitOn]
    have hpl : p ≤ sym.QualifiedName.length := by
      obtain ⟨b, -, hble, htake⟩ := beforeSignature_take sym.QualifiedName
      rw [← htake] at hlt
      simp at hlt
      omega
    refine ⟨_, _, hs, Or.inr ⟨List.splitOnP_ne_nil _ _, ?_⟩⟩
    rw [hj]
    rcases hsep with hg | ⟨hg, hn⟩
    · exact Or.inl (take_get_drop _ _ _ hg)
    · refine Or.inr ⟨take_get_drop _ _ _ hg, ?_⟩
      simpa [hpl] using hn

/-! ## The offsets of the split -/

theorem braceOff_spec (q : GoString) :
    ∃ b : Nat, braceOff q = (b : Int) ∧ b ≤ q.length ∧ q.take b = beforeSignature q := by
  unfold braceOff
  exact beforeSignature_take q

theorem slashPos_spec (q : GoString) (b : Nat) (hb : braceOff q = (b : Int))
    (hble : b ≤ q.length) :
    ∃ sp : Nat, slashPos q = (sp : Int) ∧ sp ≤ b ∧
      ((sp = 0 ∧ 0x2F ∉ (q.take b).drop 1) ∨
        (0 < sp ∧ sp < b ∧ (q.take b).get? sp = some 0x2F ∧
          0x2F ∉ (q.take b).drop (sp + 1))) := by
  have hlen : (q.take b).length = b := by simp [hble]
  unfold slashPos
  rw [hb, Int.toNat_ofNat]
  rcases LastIndexByte_spec (q.take b) 0x2F with ⟨h, hn⟩ | ⟨i, h, hi, hg, hd⟩
  · refine ⟨0, by simp [h], by omega, Or.inl ⟨rfl, fun hc => hn (List.mem_of_mem_drop hc)⟩⟩
  · rw [hlen] at hi
    have hnn : ¬ ((i : Int) < 0) := by omega
    refine ⟨i, by simp [h, hnn], by omega, ?_⟩
    rcases Nat.eq_zero_or_pos i with h0 | h0
    · subst h0
      exact Or.inl ⟨rfl, by simpa using hd⟩
    · exact Or.inr ⟨h0, hi, hg, hd⟩

theorem pointOff_spec (q : GoString) (b sp : Nat) (hb : braceOff q = (b : Int))
    (hsp : slashPos q = (sp : Int)) :
    ∃ k : Nat, pointOff q = (k : Int) ∧
      ((k = 0 ∧ (0x2E ∉ (q.take b).drop sp ∨ ((q.take b).drop sp).get? 0 = some 0x2E)) ∨
        (0 < k ∧ k < ((q.take b).drop sp).length ∧
          ((q.take b).drop sp).get? k = some 0x2E ∧
          0x2E ∉ ((q.take b).drop sp).take k)) := by
  unfold pointOff
  rw [hb, hsp, Int.toNat_ofNat, Int.toNat_ofNat]
  rcases IndexByte_spec ((q.take b).drop sp) 0x2E with ⟨h, hn⟩ | ⟨i, h, hi, hg, hd⟩
  · exact ⟨0, by simp [h], Or.inl ⟨rfl, Or.inl hn⟩⟩
  · have hnn : ¬ ((i : Int) < 0) := by omega
    refine ⟨i, by simp [h, hnn], ?_⟩
    rcases Nat.eq_zero_or_pos i with h0 | h0
    · subst h0
      exact Or.inl ⟨rfl, Or.inr hg⟩
    · exact Or.inr ⟨h0, hi, hg, hd⟩

/-- The offsets of `splitName` are in bounds, and the split is made at `slashPos + pointOff`
when that is positive. -/
theorem splitName_offsets (sym : Sym) :
    ∃ b sp k : Nat, braceOff sym.QualifiedName = (b : Int) ∧
      slashPos sym.QualifiedName = (sp : Int) ∧ pointOff sym.QualifiedName = (k : Int) ∧
      sp ≤ b ∧ b ≤ sym.QualifiedName.length ∧ (0 < sp + k → sp + k < b) ∧
      splitName sym =
        .ok (if sp + k = 0 then { sym with Name := sym.QualifiedName }
          else { sym with Path := Split (sym.QualifiedName.take (sp + k)) 0x2F,
                          Name := sym.QualifiedName.drop (sp + k + 1) }) := by
  obtain ⟨b, hb, hble, -⟩ := braceOff_spec sym.QualifiedName
  obtain ⟨sp, hsp, hsple, hspc⟩ := slashPos_spec sym.QualifiedName b hb hble
  obtain ⟨k, hk, hkc⟩ := pointOff_spec sym.QualifiedName b sp hb hsp
  have hmid : ((sym.QualifiedName.take b).drop sp).length = b - sp := by simp [hble]
  have hplt : 0 < sp + k → sp + k < b := by
    intro hp
    rcases hkc with ⟨hk0, -⟩ | ⟨-, hkl, -⟩
    · rcases hspc with ⟨hs0, -⟩ | ⟨-, hsl, -⟩
      · omega
      · omega
    · rw [hmid] at hkl; omega
  refine ⟨b, sp, k, hb, hsp, hk, hsple, hble, hplt, ?_⟩
  have hb' := hb
  have hsp' := hsp
  have hk' := hk
  unfold braceOff at hb'
  unfold slashPos at hsp'
  unfold pointOff at hk'
  rw [hb, Int.toNat_ofNat] at hsp'
  rw [hb, hsp, Int.toNat_ofNat, Int.toNat_ofNat] at hk'
  unfold splitName
  simp only [hb']
  have s1 : slice sym.QualifiedName 0 (b : Int) = .ok (sym.QualifiedName.take b) := by
    have := slice_ok sym.QualifiedName 0 b (by omega) hble
    simpa using this
  simp only [s1, hsp']
  rw [slice_ok sym.QualifiedName sp b hsple hble]
  simp only [hk']
  by_cases hp : sp + k = 0
  · have : ¬ ((sp : Int) + (k : Int) > 0) := by omega
    simp only [this, if_false, hp, if_true]
  · have hpos : ((sp : Int) + (k : Int) > 0) := by omega
    simp only [hpos, if_true, hp, if_false]
    have hlt := hplt (by omega)
    have s3 : slice sym.QualifiedName 0 ((sp : Int) + (k : Int)) =
        .ok (sym.QualifiedName.take (sp + k)) := by
      have := slice_ok sym.QualifiedName 0 (sp + k) (by omega) (by omega)
      simpa using this
    have s4 : slice sym.QualifiedName ((sp : Int) + (k : Int) + 1)
        (sym.QualifiedName.length : Int) = .ok (sym.QualifiedName.drop (sp + k + 1)) := by
      have := slice_ok sym.QualifiedName (sp + k + 1) sym.QualifiedName.length (by omega)
        (le_refl _)
      simpa using this
    simp only [s3, s4]

/-- The path and the local name that `splitName` sets are those of any other record of the
same qualified name and the same initial path. -/
theorem splitName_congr (s1 s2 r1 r2 : Sym) (hq : s1.QualifiedName = s2.QualifiedName)
    (hp : s1.Path = s2.Path) (h1 : splitName s1 = .ok r1) (h2 : splitName s2 = .ok r2) :
    r1.Path = r2.Path ∧ r1.Name = r2.Name := by
  obtain ⟨b, sp, k, hb, hsp, hk, -, -, -, e1⟩ := splitName_offsets s1
  obtain ⟨b', sp', k', hb', hsp', hk', -, -, -, e2⟩ := splitName_offsets s2
  rw [hq] at hsp hk e1
  have esp : sp = sp' := by rw [hsp] at hsp'; exact_mod_cast hsp'
  have ek : k = k' := by rw [hk] at hk'; exact_mod_cast hk'
  subst esp ek
  rw [e1] at h1
  rw [e2] at h2
  have := Except.ok.inj h1
  have := Except.ok.inj h2
  subst r1 r2
  split_ifs
  · exact ⟨hp, rfl⟩
  · exact ⟨rfl, rfl⟩

/-- What the three offsets of a qualified name are, in terms of the name before its
signature. -/
theorem offsets_spec (q : GoString) :
    ∃ b sp k : Nat, braceOff q = (b : Int) ∧ slashPos q = (sp : Int) ∧
      pointOff q = (k : Int) ∧ b ≤ q.length ∧ q.take b = beforeSignature q ∧
      (beforeSignature q).length = b ∧ sp ≤ b ∧
      ((sp = 0 ∧ 0x2F ∉ (beforeSignature q).drop 1) ∨
        (0 < sp ∧ sp < b ∧ (beforeSignature q).get? sp = some 0x2F ∧
          0x2F ∉ (beforeSignature q).drop (sp + 1))) ∧
      ((k = 0 ∧ (0x2E ∉ (beforeSignature q).drop sp ∨
          ((beforeSignature q).drop sp).get? 0 = some 0x2E)) ∨
        (0 < k ∧ sp + k < b ∧ (beforeSignature q).get? (sp + k) = some 0x2E ∧
          0x2E ∉ ((beforeSignature q).drop sp).take k)) := by
  obtain ⟨b, hb, hble, htake⟩ := braceOff_spec q
  obtain ⟨sp, hsp, hsple, hspc⟩ := slashPos_spec q b hb hble
  obtain ⟨k, hk, hkc⟩ := pointOff_spec q b sp hb hsp
  rw [htake] at hspc hkc
  have hlen : (beforeSignature q).length = b := by rw [← htake]; simp [hble]
  refine ⟨b, sp, k, hb, hsp, hk, hble, htake, hlen, hsple, hspc, ?_⟩
  rcases hkc with h | ⟨h0, hl, hg, hn⟩
  · exact Or.inl h
  · refine Or.inr ⟨h0, ?_, ?_, hn⟩
    · simp only [List.length_drop, hlen] at hl; omega
    · rw [List.get?_eq_getElem?, List.getElem?_drop] at hg
      rw [List.get?_eq_getElem?, hg]

theorem takeWhile_drop (P : Nat → Bool) (l : GoString) (n : Nat)
    (h : n ≤ (l.takeWhile P).length) :
    (l.drop n).takeWhile P = (l.takeWhile P).drop n := by
  induction l generalizing n with
  | nil => simp
  | cons a t ih =>
    cases n with
    | zero => simp
    | succ n =>
      by_cases ha : P a = true
      · simp only [List.takeWhile_cons, ha, if_true, List.length_cons] at h
        simp only [List.drop_succ_cons, List.takeWhile_cons, ha, if_true]
        exact ih n (by omega)
      · simp [List.takeWhile_cons, ha] at h

theorem lastSegment_of_not_mem (h : GoString) (hn : 0x2F ∉ h) : lastSegment h = h := by
  unfold lastSegment
  rw [List.takeWhile_eq_self_iff.mpr, List.reverse_reverse]
  intro a ha
  have : a ≠ 0x2F := fun hc => hn (by rw [← hc]; exact List.mem_reverse.mp ha)
  simpa using this

theorem lastSegment_of_last (h : GoString) (i : Nat) (hg : h.get? i = some 0x2F)
    (hn : 0x2F ∉ h.drop (i + 1)) : lastSegment h = h.drop (i + 1) := by
  have hs := take_get_drop h i 0x2F hg
  unfold lastSegment
  conv_lhs => rw [hs]
  rw [List.reverse_append, List.reverse_cons, List.append_assoc,
    List.takeWhile_append_of_pos]
  · simp
  · intro a ha
    have : a ≠ 0x2F := fun hc => hn (by rw [← hc]; exact List.mem_reverse.mp ha)
    simpa using this

theorem Join_Split (t : GoString) : Join (Split t 0x2F) [0x2F] = t := by
  unfold Split Join
  rw [List.intercalate_splitOn]

theorem Split_ne_nil (t : GoString) : Split t 0x2F ≠ [] :=
  List.splitOnP_ne_nil _ _

/-- The result of `splitName` on a record whose path is empty, by the value of the split
point. -/
theorem splitName_cases (sym0 sym : Sym) (h : splitName sym0 = .ok sym)
    (hp0 : sym0.Path = []) :
    ∃ b sp k : Nat, braceOff sym0.QualifiedName = (b : Int) ∧
      slashPos sym0.QualifiedName = (sp : Int) ∧ pointOff sym0.QualifiedName = (k : Int) ∧
      ((sp + k = 0 ∧ sym.Path = [] ∧ sym.Name = sym0.QualifiedName) ∨
        (0 < sp + k ∧ sp + k < b ∧ sym.Path ≠ [] ∧
          Join sym.Path [0x2F] = sym0.QualifiedName.take (sp + k) ∧
          sym.Name = sym0.QualifiedName.drop (sp + k + 1))) := by
  obtain ⟨b, sp, k, hb, hsp, hk, -, -, hlt, e⟩ := splitName_offsets sym0
  refine ⟨b, sp, k, hb, hsp, hk, ?_⟩
  rw [e] at h
  have hs := Except.ok.inj h
  subst hs
  by_cases hp : sp + k = 0
  · rw [if_pos hp]
    exact Or.inl ⟨hp, hp0, rfl⟩
  · rw [if_neg hp]
    exact Or.inr ⟨by omega, hlt (by omega), Split_ne_nil _, Join_Split _, rfl⟩

theorem splitName_path_nil_iff (sym0 sym : Sym) (h : splitName sym0 = .ok sym)
    (hp0 : sym0.Path = []) :
    (sym.Path = [] ↔
      (0x2F ∉ (beforeSignature sym0.QualifiedName).drop 1 ∧
        (0x2E ∉ beforeSignature sym0.QualifiedName ∨
          (beforeSignature sym0.QualifiedName).head? = some 0x2E))) ∧
    (sym.Path = [] → sym.Name = sym0.QualifiedName) := by
  obtain ⟨b, sp, k, hb, hsp, hk, hc⟩ := splitName_cases sym0 sym h hp0
  obtain ⟨b', sp', k', hb', hsp', hk', -, -, hlen, -, hspc, hkc⟩ :=
    offsets_spec sym0.QualifiedName
  have eb : b' = b := by rw [hb] at hb'; exact_mod_cast hb'.symm
  have esp : sp' = sp := by rw [hsp] at hsp'; exact_mod_cast hsp'.symm
  have ek : k' = k := by rw [hk] at hk'; exact_mod_cast hk'.symm
  subst eb esp ek
  generalize beforeSignature sym0.QualifiedName = hd at hlen hspc hkc
  have key : sp' + k' = 0 ↔ (0x2F ∉ hd.drop 1 ∧ (0x2E ∉ hd ∨ hd.head? = some 0x2E)) := by
    constructor
    · intro h0
      have hs0 : sp' = 0 := by omega
      have hk0 : k' = 0 := by omega
      subst hs0 hk0
      rcases hspc with ⟨-, hn⟩ | ⟨hpos, -⟩
      · rcases hkc with ⟨-, hd1⟩ | ⟨hpos, -⟩
        · refine ⟨hn, ?_⟩
          rcases hd1 with hd1 | hd1
          · exact Or.inl (by simpa using hd1)
          · right
            rw [List.head?_eq_getElem?]
            simpa [List.get?_eq_getElem?] using hd1
        · omega
      · omega
    · rintro ⟨hns, hdot⟩
      have hs0 : sp' = 0 := by
        rcases hspc with ⟨h0, -⟩ | ⟨hpos, hlt, hg, -⟩
        · exact h0
        · exfalso
          apply hns
          rw [List.get?_eq_getElem?] at hg
          have hm : (0x2F : Nat) ∈ hd.drop 1 := by
            rw [List.mem_iff_getElem?]
            refine ⟨sp' - 1, ?_⟩
            rw [List.getElem?_drop]
            have : 1 + (sp' - 1) = sp' := by omega
            rw [this, hg]
          exact hm
      subst hs0
      have hk0 : k' = 0 := by
        rcases hkc with ⟨h0, -⟩ | ⟨hpos, hlt, hg, hn⟩
        · exact h0
        · exfalso
          simp only [List.drop_zero, Nat.zero_add] at hg hn
          rcases hdot with hdot | hdot
          · exact hdot (List.get?_mem hg)
          · apply hn
            rw [List.head?_eq_getElem?] at hdot
            rw [List.mem_iff_getElem?]
            exact ⟨0, by rw [List.getElem?_take_of_lt hpos, hdot]⟩
      omega
  rcases hc with ⟨h0, hp, hn⟩ | ⟨hpos, -, hp, -, -⟩
  · exact ⟨⟨fun _ => key.mp h0, fun _ => hp⟩, fun _ => hn⟩
  · refine ⟨⟨fun hnil => absurd hnil hp, fun hcond => ?_⟩, fun hnil => absurd hnil hp⟩
    have := key.mpr hcond
    omega

theorem mem_drop_of_get (l : GoString) (i n c : Nat) (hg : l.get? i = some c) (hn : n ≤ i) :
    c ∈ l.drop n := by
  rw [List.mem_iff_getElem?]
  refine ⟨i - n, ?_⟩
  rw [List.getElem?_drop]
  have : n + (i - n) = i := by omega
  rw [this, ← List.get?_eq_getElem?, hg]

theorem splitName_separator (sym0 sym : Sym) (h : splitName sym0 = .ok sym)
    (hp0 : sym0.Path = []) (hp : sym.Path ≠ []) :
    (0x2E ∈ lastSegment (beforeSignature sym0.QualifiedName) →
      sym0.QualifiedName = Join sym.Path [0x2F] ++ 0x2E :: sym.Name) ∧
    (0x2E ∉ lastSegment (beforeSignature sym0.QualifiedName) →
      sym0.QualifiedName = Join sym.Path [0x2F] ++ 0x2F :: sym.Name ∧
      beforeSignature sym.Name = lastSegment (beforeSignature sym0.QualifiedName) ∧
      beforeSignature sym0.QualifiedName =
        Join sym.Path [0x2F] ++ 0x2F :: lastSegment (beforeSignature sym0.QualifiedName)) := by
  obtain ⟨b, sp, k, hb, hsp, hk, hc⟩ := splitName_cases sym0 sym h hp0
  obtain ⟨b', sp', k', hb', hsp', hk', hble, htake, hlen, hsple, hspc, hkc⟩ :=
    offsets_spec sym0.QualifiedName
  have eb : b' = b := by rw [hb] at hb'; exact_mod_cast hb'.symm
  have esp : sp' = sp := by rw [hsp] at hsp'; exact_mod_cast hsp'.symm
  have ek : k' = k := by rw [hk] at hk'; exact_mod_cast hk'.symm
  subst eb esp ek
  rcases hc with ⟨-, hnil, -⟩ | ⟨hpos, hlt, -, hj, hn⟩
  · exact absurd hnil hp
  have hqget : ∀ i c, i < b' → (beforeSignature sym0.QualifiedName).get? i = some c →
      sym0.QualifiedName.get? i = some c := by
    intro i c hi hg
    rw [← htake, List.get?_eq_getElem?, List.getElem?_take_of_lt hi] at hg
    rw [List.get?_eq_getElem?, hg]
  rw [hj, hn]
  rcases hkc with ⟨hk0, hdot⟩ | ⟨hkpos, -, hg, -⟩
  · -- no `.` after the last `/`: the split is at the `/`
    subst hk0
    rcases hspc with ⟨hs0, -⟩ | ⟨-, hslt, hgs, hns⟩
    · omega
    have hseg := lastSegment_of_last _ sp' hgs hns
    have hnd : 0x2E ∉ (beforeSignature sym0.QualifiedName).drop sp' := by
      rcases hdot with hdot | hdot
      · exact hdot
      · rw [List.get?_eq_getElem?, List.getElem?_drop, Nat.add_zero,
          ← List.get?_eq_getElem?, hgs] at hdot
        cases hdot
    have hnseg : 0x2E ∉ lastSegment (beforeSignature sym0.QualifiedName) := by
      rw [hseg]
      intro hc
      apply hnd
      have : (beforeSignature sym0.QualifiedName).drop (sp' + 1) =
          ((beforeSignature sym0.QualifiedName).drop sp').drop 1 := by
        rw [List.drop_drop]
      rw [this] at hc
      exact List.mem_of_mem_drop hc
    refine ⟨fun hc => absurd hc hnseg, fun _ => ⟨?_, ?_, ?_⟩⟩
    · exact take_get_drop _ _ _ (hqget _ _ hslt hgs)
    · rw [hseg]
      unfold beforeSignature
      exact takeWhile_drop _ _ _ (by
        have := hlen
        unfold beforeSignature at this
        rw [this]; omega)
    · rw [hseg]
      have e1 : sym0.QualifiedName.take (sp' + 0) =
          (beforeSignature sym0.QualifiedName).take sp' := by
        rw [← htake, List.take_take, Nat.add_zero]
        congr 1; omega
      rw [e1]
      exact take_get_drop _ _ _ hgs
  · -- a `.` after the last `/`: the split is at the first such `.`
    have hmem : 0x2E ∈ lastSegment (beforeSignature sym0.QualifiedName) := by
      rcases hspc with ⟨hs0, hns⟩ | ⟨-, hslt, hgs, hns⟩
      · subst hs0
        by_cases hsl : 0x2F ∈ beforeSignature sym0.QualifiedName
        · have h0 : (beforeSignature sym0.QualifiedName).get? 0 = some 0x2F := by
            cases hbs : beforeSignature sym0.QualifiedName with
            | nil => rw [hbs] at hsl; simp at hsl
            | cons a t =>
              rw [hbs] at hsl hns
              simp only [List.drop_succ_cons, List.drop_zero] at hns
              rcases List.mem_cons.mp hsl with ha | ha
              · simp [ha]
              · exact absurd ha hns
          rw [lastSegment_of_last _ 0 h0 hns]
          exact mem_drop_of_get _ _ _ _ hg (by omega)
        · rw [lastSegment_of_not_mem _ hsl]
          exact List.get?_mem hg
      · rw [lastSegment_of_last _ sp' hgs hns]
        exact mem_drop_of_get _ _ _ _ hg (by omega)
    exact ⟨fun _ => take_get_drop _ _ _ (hqget _ _ hlt hg), fun hc => absurd hmem hc⟩

/-! ## Code points: the runes of a string, and `escapeID` -/

theorem decode_two (b0 b1 lo hi : Nat) (rest : GoString) (h0 : ¬ b0 < 0x80)
    (hl : leadInfo b0 = some (2, lo, hi)) (h1 : ¬ (b1 < lo ∨ hi < b1)) :
    DecodeRuneInString (b0 :: b1 :: rest) = (b0 % 32 * 64 + b1 % 64, 2) := by
  simp only [DecodeRuneInString, h0, if_false, hl, List.length_cons, h1]
  have : ¬ (rest.length + 1 + 1 < 2) := by omega
  simp only [this, if_false, le_refl, if_true]

theorem decode_three (b0 b1 b2 lo hi : Nat) (rest : GoString) (h0 : ¬ b0 < 0x80)
    (hl : leadInfo b0 = some (3, lo, hi)) (h1 : ¬ (b1 < lo ∨ hi < b1))
    (h2 : ¬ (b2 < 0x80 ∨ 0xBF < b2)) :
    DecodeRuneInString (b0 :: b1 :: b2 :: rest) =
      (b0 % 16 * 4096 + b1 % 64 * 64 + b2 % 64, 3) := by
  simp only [DecodeRuneInString, h0, if_false, hl, List.length_cons, h1, h2]
  have e1 : ¬ (rest.length + 1 + 1 + 1 < 3) := by omega
  have e2 : ¬ ((3 : Nat) ≤ 2) := by omega
  simp only [e1, e2, if_false, le_refl, if_true]

theorem decode_four (b0 b1 b2 b3 lo hi : Nat) (rest : GoString) (h0 : ¬ b0 < 0x80)
    (hl : leadInfo b0 = some (4, lo, hi)) (h1 : ¬ (b1 < lo ∨ hi < b1))
    (h2 : ¬ (b2 < 0x80 ∨ 0xBF < b2)) (h3 : ¬ (b3 < 0x80 ∨ 0xBF < b3)) :
    DecodeRuneInString (b0 :: b1 :: b2 :: b3 :: rest) =
      (b0 % 8 * 262144 + b1 % 64 * 4096 + b2 % 64 * 64 + b3 % 64, 4) := by
  simp only [DecodeRuneInString, h0, if_false, hl, List.length_cons, h1, h2, h3]
  have e1 : ¬ (rest.length + 1 + 1 + 1 + 1 < 4) := by omega
  have e2 : ¬ ((4 : Nat) ≤ 2) := by omega
  have e3 : ¬ ((4 : Nat) ≤ 3) := by omega
  simp only [e1, e2, e3, if_false]

theorem leadInfo_two (b : Nat) (h : 0xC2 ≤ b ∧ b ≤ 0xDF) : leadInfo b = some (2, 0x80, 0xBF) := by
  unfold leadInfo
  split_ifs <;> first | rfl | omega

theorem leadInfo_three (b : Nat) (h : 0xE0 ≤ b ∧ b ≤ 0xEF) :
    leadInfo b = some (3, if b = 0xE0 then 0xA0 else 0x80, if b = 0xED then 0x9F else 0xBF) := by
  unfold leadInfo
  split_ifs <;> first | rfl | omega

theorem leadInfo_four (b : Nat) (h : 0xF0 ≤ b ∧ b ≤ 0xF4) :
    leadInfo b = some (4, if b = 0xF0 then 0x90 else 0x80, if b = 0xF4 then 0x8F else 0xBF) := by
  unfold leadInfo
  split_ifs <;> first | rfl | omega

theorem decode_encodeRune (r : Nat) (hv : r < 0xD800 ∨ (0xDFFF < r ∧ r < 0x110000))
    (rest : GoString) :
    DecodeRuneInString (encodeRune r ++ rest) = (r, (encodeRune r).length) := by
  unfold encodeRune
  split_ifs with h1 h2 h3
  · simp [DecodeRuneInString, h1]
  · show DecodeRuneInString ((0xC0 + r / 64) :: (0x80 + r % 64) :: rest) = _
    rw [decode_two _ _ _ _ _ (by omega) (leadInfo_two _ (by omega)) (by omega)]
    simp only [List.length_cons, List.length_nil, Prod.mk.injEq, and_true]
    omega
  · show DecodeRuneInString
      ((0xE0 + r / 4096) :: (0x80 + r / 64 % 64) :: (0x80 + r % 64) :: rest) = _
    rw [decode_three _ _ _ _ _ _ (by omega) (leadInfo_three _ (by omega))
      (by split_ifs <;> omega) (by omega)]
    simp only [List.length_cons, List.length_nil, Prod.mk.injEq, and_true]
    omega
  · show DecodeRuneInString
      ((0xF0 + r / 262144) :: (0x80 + r / 4096 % 64) :: (0x80 + r / 64 % 64) ::
        (0x80 + r % 64) :: rest) = _
    rw [decode_four _ _ _ _ _ _ _ (by omega) (leadInfo_four _ (by omega))
      (by split_ifs <;> omega) (by omega) (by omega)]
    simp only [List.length_cons, List.length_nil, Prod.mk.injEq, and_true]
    omega

theorem runesLoop_skip (t rest : GoString) :
    runesLoop (t ++ rest) t.length = runesLoop rest 0 := by
  induction t with
  | nil => simp
  | cons b t ih =>
    show runesLoop (b :: (t ++ rest)) (t.length + 1) = _
    simp only [runesLoop]
    exact ih

theorem encodeRune_ne_nil (r : Nat) : encodeRune r ≠ [] := by
  unfold encodeRune
  split_ifs <;> simp

theorem runes_encodeRune (r : Nat) (hv : r < 0xD800 ∨ (0xDFFF < r ∧ r < 0x110000))
    (rest : GoString) : runes (encodeRune r ++ rest) = r :: runes rest := by
  have hd := decode_encodeRune r hv rest
  cases he : encodeRune r with
  | nil => exact absurd he (encodeRune_ne_nil r)
  | cons b t =>
    rw [he] at hd
    unfold runes
    show runesLoop (b :: (t ++ rest)) 0 = _
    simp only [runesLoop]
    have hd' : DecodeRuneInString (b :: (t ++ rest)) = (r, (b :: t).length) := hd
    rw [hd']
    simp only [List.length_cons, Nat.add_sub_cancel]
    rw [runesLoop_skip]

theorem Char_toNat_valid (c : Char) :
    c.toNat < 0xD800 ∨ (0xDFFF < c.toNat ∧ c.toNat < 0x110000) := by
  have h := c.valid
  unfold UInt32.isValidChar Nat.isValidChar at h
  exact h

theorem runes_flatMap (cs : List Char) :
    runes (cs.flatMap fun c => encodeRune c.toNat) = cs.map Char.toNat := by
  induction cs with
  | nil => rfl
  | cons c cs ih =>
    simp only [List.flatMap_cons, List.map_cons]
    rw [runes_encodeRune _ (Char_toNat_valid c), ih]

/-- The code points of the Go string of a string literal are the characters of the
literal. -/
theorem runes_ofString (s : String) : runes (ofString s) = s.toList.map Char.toNat :=
  runes_flatMap s.toList

theorem escapeRune_cases (r : Nat) :
    (if 0x61 ≤ r ∧ r ≤ 0x7A then r % 256
      else if 0x41 ≤ r ∧ r ≤ 0x5A then r % 256
      else if 0x30 ≤ r ∧ r ≤ 0x39 then r % 256 else 0x5F) = escapeRune r := by
  unfold escapeRune isAlnum
  by_cases h1 : 0x61 ≤ r ∧ r ≤ 0x7A
  · have : r % 256 = r := by omega
    simp [h1, this]
  · by_cases h2 : 0x41 ≤ r ∧ r ≤ 0x5A
    · have : r % 256 = r := by omega
      simp [h1, h2, this]
    · by_cases h3 : 0x30 ≤ r ∧ r ≤ 0x39
      · have : r % 256 = r := by omega
        simp [h1, h2, h3, this]
      · simp [h1, h2, h3]

theorem escapeLoop_eq (s : GoString) (skip : Nat) (d : GoString) :
    escapeLoop s skip d = d ++ (runesLoop s skip).map escapeRune := by
  induction s generalizing skip d with
  | nil => simp [escapeLoop, runesLoop]
  | cons b rest ih =>
    cases skip with
    | succ n => simp only [escapeLoop, runesLoop]; exact ih n d
    | zero =>
      simp only [escapeLoop, runesLoop, List.map_cons]
      rw [← escapeRune_cases]
      split_ifs <;> rw [ih] <;> simp

/-- `escapeID` maps each code point of the string to one character. -/
theorem escapeID_eq_map (s : GoString) : escapeID s = (runes s).map escapeRune := by
  unfold escapeID runes
  rw [escapeLoop_eq]
  simp

theorem escapeRune_safe (r : Nat) : isAlnum (escapeRune r) = true ∨ escapeRune r = 0x5F := by
  unfold escapeRune
  split_ifs with h
  · exact Or.inl h
  · exact Or.inr rfl

theorem runes_ascii (s : GoString) (h : ∀ b ∈ s, b < 0x80) : runes s = s := by
  unfold runes
  induction s with
  | nil => rfl
  | cons b rest ih =>
    have hb := h b (by simp)
    have hd : DecodeRuneInString (b :: rest) = (b, 1) := by
      simp [DecodeRuneInString, hb]
    simp only [runesLoop, hd]
    rw [ih (fun c hc => h c (by simp [hc]))]

theorem escapeRune_of_safe (b : Nat) (h : isAlnum b = true ∨ b = 0x5F) : escapeRune b = b := by
  unfold escapeRune
  rcases h with h | h
  · simp [h]
  · subst h; decide

theorem safe_lt (b : Nat) (h : isAlnum b = true ∨ b = 0x5F) : b < 0x80 := by
  rcases h with h | h
  · unfold isAlnum at h
    simp only [Bool.decide_or, Bool.decide_and, Bool.or_eq_true, Bool.and_eq_true,
      decide_eq_true_eq] at h
    omega
  · omega

theorem escapeID_of_safe (s : GoString) (h : ∀ b ∈ s, isAlnum b = true ∨ b = 0x5F) :
    escapeID s = s := by
  rw [escapeID_eq_map, runes_ascii s (fun b hb => safe_lt b (h b hb))]
  conv_rhs => rw [← List.map_id s]
  apply List.map_congr_left
  intro b hb
  simpa using escapeRune_of_safe b (h b hb)

theorem escapeID_safe (s : GoString) : ∀ b ∈ escapeID s, isAlnum b = true ∨ b = 0x5F := by
  intro b hb
  rw [escapeID_eq_map] at hb
  obtain ⟨r, -, rfl⟩ := List.mem_map.mp hb
  exact escapeRune_safe r

/-! ## The layouts of a line -/

theorem parseLine_short (s : GoString) (h : (Fields s).length ≤ 2) :
    parseLine s = .error .invalidSymText := by
  simp [parseLine, h]

theorem parseLine_noType (s t0 t1 t2 : GoString) (rest : List GoString)
    (h : Fields s = t0 :: t1 :: t2 :: rest) (h1 : isSymType t1 = false)
    (h2 : isSymType t2 = false) : parseLine s = .error .typeNotFound := by
  simp [parseLine, h, splitFields, index, h1, h2]

theorem parseLine_size (s t0 t1 t2 : GoString) (rest : List GoString)
    (h : Fields s = t0 :: t1 :: t2 :: rest) (h1 : isSymType t1 = true) :
    parseLine s =
      match ParseInt t0 10 with
      | (n, none) =>
        if t2 = [] then
          .ok { Addr := 0, Size := (if n = 4294967296 then 0 else n),
                Code := (if TrimSpace t1 ≠ [] then (DecodeRuneInString (TrimSpace t1)).1 else 0),
                QualifiedName := t2, Info := Join rest [0x20], Path := [], Name := [] }
        else
          splitName { Addr := 0, Size := (if n = 4294967296 then 0 else n),
                      Code := (if TrimSpace t1 ≠ [] then (DecodeRuneInString (TrimSpace t1)).1 else 0),
                      QualifiedName := t2, Info := Join rest [0x20], Path := [], Name := [] }
      | (_, some _) => .error .invalidSize := by
  have h0 : t0 ≠ [] := Fields_ne_nil s t0 (by simp [h])
  have hinfo : (if 0 < rest.length then Join rest [0x20] else []) = Join rest [0x20] := by
    cases rest <;> simp [Join, List.intercalate]
  rcases hp : ParseInt t0 10 with ⟨n, _ | e⟩ <;>
    simp [parseLine, h, splitFields, index, h1, parseNumbers, h0, hp, Sym.zero, hinfo]

theorem parseLine_addr (s t0 t1 t2 : GoString) (rest : List GoString)
    (h : Fields s = t0 :: t1 :: t2 :: rest) (h1 : isSymType t1 = false)
    (h2 : isSymType t2 = true) :
    parseLine s =
      match ParseUint t0 16 with
      | (a, none) =>
        (match ParseInt t1 10 with
        | (n, none) =>
          if rest.headD [] = [] then
            .ok { Addr := a, Size := (if n = 4294967296 then 0 else n),
                  Code := (if TrimSpace t2 ≠ [] then (DecodeRuneInString (TrimSpace t2)).1 else 0),
                  QualifiedName := rest.headD [], Info := Join (rest.drop 1) [0x20],
                  Path := [], Name := [] }
          else
            splitName { Addr := a, Size := (if n = 4294967296 then 0 else n),
                        Code := (if TrimSpace t2 ≠ [] then (DecodeRuneInString (TrimSpace t2)).1 else 0),
                        QualifiedName := rest.headD [], Info := Join (rest.drop 1) [0x20],
                        Path := [], Name := [] }
        | (_, some _) => .error .invalidSize)
      | (_, some _) => .error .invalidAddr := by
  have h0 : t0 ≠ [] := Fields_ne_nil s t0 (by simp [h])
  have h1' : t1 ≠ [] := Fields_ne_nil s t1 (by simp [h])
  rcases rest with _ | ⟨r, _ | ⟨r2, rs⟩⟩ <;>
    rcases hp : ParseUint t0 16 with ⟨a, _ | e⟩ <;>
    rcases hq : ParseInt t1 10 with ⟨n, _ | e2⟩ <;>
    simp [parseLine, h, splitFields, index, h1, h2, parseNumbers, h0, h1', hp, hq, Sym.zero,
      Join, List.intercalate]

theorem splitName_fields (sym r : Sym) (h : splitName sym = .ok r) :
    r.Addr = sym.Addr ∧ r.Size = sym.Size ∧ r.Code = sym.Code ∧
      r.QualifiedName = sym.QualifiedName ∧ r.Info = sym.Info := by
  obtain ⟨path, name, hs, -⟩ := splitName_spec sym
  rw [hs] at h
  cases h
  exact ⟨rfl, rfl, rfl, rfl, rfl⟩

theorem splitName_ne_error (sym : Sym) (e : Fault) : splitName sym ≠ .error e := by
  obtain ⟨path, name, hs, -⟩ := splitName_spec sym
  rw [hs]; simp

/-- What an accepted line yields, by layout. -/
theorem parseLine_ok_inv (s : GoString) (sym : Sym) (h : parseLine s = .ok sym) :
    ∃ t0 t1 t2 rest, Fields s = t0 :: t1 :: t2 :: rest ∧
      ((isSymType t1 = true ∧ sym.Addr = 0 ∧
          (∃ n, ParseInt t0 10 = (n, none) ∧ sym.Size = if n = 4294967296 then 0 else n) ∧
          sym.QualifiedName = t2 ∧ sym.Info = Join rest [0x20]) ∨
        (isSymType t1 = false ∧ isSymType t2 = true ∧
          ParseUint t0 16 = (sym.Addr, none) ∧
          (∃ n, ParseInt t1 10 = (n, none) ∧ sym.Size = if n = 4294967296 then 0 else n) ∧
          sym.QualifiedName = rest.headD [] ∧ sym.Info = Join (rest.drop 1) [0x20])) ∧
      ((sym.QualifiedName = [] ∧ sym.Path = [] ∧ sym.Name = []) ∨
        (sym.QualifiedName ≠ [] ∧
          splitName { sym with Path := [], Name := [] } = .ok sym)) := by
  rcases hf : Fields s with _ | ⟨t0, _ | ⟨t1, _ | ⟨t2, rest⟩⟩⟩
  · rw [parseLine_short s (by simp [hf])] at h; cases h
  · rw [parseLine_short s (by simp [hf])] at h; cases h
  · rw [parseLine_short s (by simp [hf])] at h; cases h
  refine ⟨t0, t1, t2, rest, rfl, ?_⟩
  cases h1 : isSymType t1 with
  | true =>
    rw [parseLine_size s t0 t1 t2 rest hf h1] at h
    rcases hp : ParseInt t0 10 with ⟨n, _ | e⟩
    · rw [hp] at h
      simp only [] at h
      by_cases hq : t2 = []
      · rw [if_pos hq] at h
        cases h
        exact ⟨Or.inl ⟨rfl, rfl, ⟨n, rfl, rfl⟩, rfl, rfl⟩, Or.inl ⟨hq, rfl, rfl⟩⟩
      · rw [if_neg hq] at h
        obtain ⟨ha, hs, hc, hqn, hi⟩ := splitName_fields _ _ h
        simp only [] at ha hs hc hqn hi
        refine ⟨Or.inl ⟨rfl, ha, ⟨n, rfl, hs⟩, hqn, hi⟩, Or.inr ⟨by rw [hqn]; exact hq, ?_⟩⟩
        rw [← h]; congr 1
        cases sym; simp_all
    · rw [hp] at h; cases h
  | false =>
    cases h2 : isSymType t2 with
    | false => rw [parseLine_noType s t0 t1 t2 rest hf h1 h2] at h; cases h
    | true =>
      rw [parseLine_addr s t0 t1 t2 rest hf h1 h2] at h
      rcases hp : ParseUint t0 16 with ⟨a, _ | e⟩
      · rcases hp2 : ParseInt t1 10 with ⟨n, _ | e⟩
        · rw [hp, hp2] at h
          simp only [] at h
          by_cases hq : rest.headD [] = []
          · rw [if_pos hq] at h
            cases h
            exact ⟨Or.inr ⟨rfl, rfl, rfl, ⟨n, rfl, rfl⟩, rfl, rfl⟩, Or.inl ⟨hq, rfl, rfl⟩⟩
          · rw [if_neg hq] at h
            obtain ⟨ha, hs, hc, hqn, hi⟩ := splitName_fields _ _ h
            simp only [] at ha hs hc hqn hi
            refine ⟨Or.inr ⟨rfl, rfl, by rw [ha], ⟨n, rfl, hs⟩, hqn, hi⟩,
              Or.inr ⟨by rw [hqn]; exact hq, ?_⟩⟩
            rw [← h]; congr 1
            cases sym; simp_all
        · rw [hp, hp2] at h; cases h
      · rw [hp] at h; cases h

theorem finish_ok (q : GoString) (sym : Sym) :
    ∃ r, (if q = [] then Except.ok sym else splitName sym) = .ok r := by
  split_ifs
  · exact ⟨sym, rfl⟩
  · obtain ⟨path, name, hs, -⟩ := splitName_spec sym
    exact ⟨_, hs⟩

theorem parseLine_result (s : GoString) :
    (rejected (Fields s) ∧ ∃ e, parseLine s = .error e ∧ e ≠ .panicked) ∨
      (¬ rejected (Fields s) ∧ ∃ sym, parseLine s = .ok sym) := by
  rcases hf : Fields s with _ | ⟨t0, _ | ⟨t1, _ | ⟨t2, rest⟩⟩⟩
  · exact Or.inl ⟨Or.inl (by simp), _, parseLine_short s (by simp [hf]), by simp⟩
  · exact Or.inl ⟨Or.inl (by simp), _, parseLine_short s (by simp [hf]), by simp⟩
  · exact Or.inl ⟨Or.inl (by simp), _, parseLine_short s (by simp [hf]), by simp⟩
  have hlen : ¬ (t0 :: t1 :: t2 :: rest).length < 3 := by simp
  cases h1 : isSymType t1 with
  | true =>
    rw [parseLine_size s t0 t1 t2 rest hf h1]
    have hst : sizeToken (t0 :: t1 :: t2 :: rest) = t0 := by simp [sizeToken, token, h1]
    rcases hp : ParseInt t0 10 with ⟨n, _ | e⟩
    · right
      have hfit : fitsInt64 t0 := (ParseInt_none_iff t0).mp (by rw [hp])
      refine ⟨?_, finish_ok _ _⟩
      simp [rejected, token, h1, hst, hfit]
    · left
      have hfit : ¬ fitsInt64 t0 := fun hc => by
        have := (ParseInt_none_iff t0).mpr hc
        rw [hp] at this; cases this
      exact ⟨Or.inr (Or.inr (Or.inr (by rw [hst]; exact hfit))), _, rfl, by simp⟩
  | false =>
    have hst : sizeToken (t0 :: t1 :: t2 :: rest) = t1 := by simp [sizeToken, token, h1]
    cases h2 : isSymType t2 with
    | false =>
      rw [parseLine_noType s t0 t1 t2 rest hf h1 h2]
      exact Or.inl ⟨Or.inr (Or.inl (by simp [token, h1, h2])), _, rfl, by simp⟩
    | true =>
      rw [parseLine_addr s t0 t1 t2 rest hf h1 h2]
      rcases hp : ParseUint t0 16 with ⟨a, _ | e⟩
      · have hfa : fitsUint64 t0 := (ParseUint_none_iff_fits t0).mp (by rw [hp])
        rcases hp2 : ParseInt t1 10 with ⟨n, _ | e⟩
        · right
          have hfit : fitsInt64 t1 := (ParseInt_none_iff t1).mp (by rw [hp2])
          refine ⟨?_, finish_ok _ _⟩
          simp [rejected, token, h1, h2, hst, hfit, hfa]
        · left
          have hfit : ¬ fitsInt64 t1 := fun hc => by
            have := (ParseInt_none_iff t1).mpr hc
            rw [hp2] at this; cases this
          exact ⟨Or.inr (Or.inr (Or.inr (by rw [hst]; exact hfit))), _, rfl, by simp⟩
      · left
        have hfa : ¬ fitsUint64 t0 := fun hc => by
          have := (ParseUint_none_iff_fits t0).mpr hc
          rw [hp] at this; cases this
        exact ⟨Or.inr (Or.inr (Or.inl ⟨by simp [token, h1], by simp [token, h2],
          by simpa [token] using hfa⟩)), _, rfl, by simp⟩

/-! ## Writing numbers: the line of a given address and size -/

theorem digitOf_digitByte (d : Nat) (h : d < 36) : digitOf (digitByte d) = some d := by
  unfold digitOf digitByte
  split_ifs <;> first | omega | (congr 1; omega)

theorem digitByte_plain (d : Nat) (h : d < 36) :
    digitByte d < 0x80 ∧ IsSpace (digitByte d) = false := by
  unfold digitByte IsSpace
  split_ifs <;> simp <;> omega

theorem numeralLoop_append (base : Nat) (l1 l2 : GoString) (n : Nat) :
    numeralLoop base (l1 ++ l2) n = (numeralLoop base l1 n).bind (numeralLoop base l2) := by
  induction l1 generalizing n with
  | nil => simp [numeralLoop]
  | cons c rest ih =>
    simp only [List.cons_append, numeralLoop]
    cases digitOf c with
    | none => simp
    | some d =>
      simp only []
      split_ifs
      · exact ih _
      · simp

theorem formatBits_spec (base : Nat) (hb : 2 ≤ base) (hb2 : base ≤ 36) (fuel u : Nat)
    (acc : GoString) (hf : 1 ≤ fuel) (hu : u < base ^ fuel) :
    ∃ ds, formatBits base fuel u acc = ds ++ acc ∧ ds ≠ [] ∧
      (∀ n, numeralLoop base ds n = some (n * base ^ ds.length + u)) ∧
      (∀ b ∈ ds, ∃ d, d < base ∧ b = digitByte d) := by
  induction fuel generalizing u acc with
  | zero => omega
  | succ fuel ih =>
    simp only [formatBits]
    by_cases hge : u ≥ base
    · simp only [hge, if_true]
      have hfuel : 1 ≤ fuel := by
        rcases Nat.eq_zero_or_pos fuel with h0 | h0
        · subst h0; simp at hu; omega
        · exact h0
      have hdiv : u / base < base ^ fuel := by
        rw [Nat.div_lt_iff_lt_mul (by omega)]
        rwa [pow_succ] at hu
      obtain ⟨ds, h1, h2, h3, h4⟩ := ih (u / base) (digitByte (u % base) :: acc) hfuel hdiv
      have hmod : u % base < base := Nat.mod_lt _ (by omega)
      refine ⟨ds ++ [digitByte (u % base)], by simp [h1], by simp, ?_, ?_⟩
      · intro n
        rw [numeralLoop_append, h3]
        simp only [Option.some_bind, numeralLoop, digitOf_digitByte (u % base) (by omega),
          hmod, if_true, List.length_append, List.length_singleton, Option.some.injEq]
        have := Nat.div_add_mod u base
        rw [pow_succ]
        nlinarith [this]
      · intro b hbm
        rcases List.mem_append.mp hbm with hbm | hbm
        · exact h4 b hbm
        · exact ⟨u % base, hmod, by simpa using hbm⟩
    · simp only [hge, if_false]
      have hlt : u < base := by omega
      refine ⟨[digitByte u], rfl, by simp, ?_, ?_⟩
      · intro n
        simp [numeralLoop, digitOf_digitByte u (by omega), hlt]
      · intro b hbm
        exact ⟨u, hlt, by simpa using hbm⟩

theorem FormatUint_spec (base : Nat) (hb : 2 ≤ base) (hb2 : base ≤ 36) (u : Nat)
    (hu : u < 2 ^ 64) :
    FormatUint u base ≠ [] ∧ numeral base (FormatUint u base) = some u ∧
      (∀ b ∈ FormatUint u base, ∃ d, d < base ∧ b = digitByte d) := by
  have hpow : u < base ^ 64 := lt_of_lt_of_le hu (Nat.pow_le_pow_left hb 64)
  obtain ⟨ds, h1, h2, h3, h4⟩ := formatBits_spec base hb hb2 64 u [] (by norm_num) hpow
  unfold FormatUint numeral
  rw [h1, List.append_nil]
  refine ⟨h2, ?_, h4⟩
  simp [h2, h3]

theorem noSpaceLoop_ascii (t : GoString) (h : ∀ b ∈ t, b < 0x80 ∧ IsSpace b = false) :
    noSpaceLoop t 0 = true := by
  induction t with
  | nil => simp [noSpaceLoop]
  | cons b rest ih =>
    have hb := h b (by simp)
    have hd : DecodeRuneInString (b :: rest) = (b, 1) := by
      simp [DecodeRuneInString, hb.1]
    simp only [noSpaceLoop, hd, hb.2, Bool.not_false, Bool.true_and]
    exact ih (fun c hc => h c (by simp [hc]))

theorem whitespaceFree_digits (base : Nat) (hb2 : base ≤ 36) (t : GoString)
    (h : ∀ b ∈ t, ∃ d, d < base ∧ b = digitByte d) : whitespaceFree t = true := by
  apply noSpaceLoop_ascii
  intro b hb
  obtain ⟨d, hd, rfl⟩ := h b hb
  exact digitByte_plain d (by omega)

theorem whitespaceFree_letter (c : Nat) (h : IsLetter c = true) :
    whitespaceFree [c] = true := by
  unfold whitespaceFree
  simp only [noSpaceLoop, Bool.and_true, Bool.not_eq_true']
  by_cases h0 : c < 0x80
  · simp only [DecodeRuneInString, h0, if_true]
    unfold IsLetter at h
    unfold IsSpace
    have hc : c ≤ 0xFF := by omega
    simp only [hc, if_true]
    simp only [Bool.decide_or, Bool.decide_and, Bool.or_eq_true, Bool.and_eq_true,
      decide_eq_true_eq, Bool.or_eq_false_iff, decide_eq_false_iff_not] at h ⊢
    omega
  · cases hl : leadInfo c with
    | none => simp [DecodeRuneInString, h0, hl, RuneError, IsSpace]
    | some p =>
      obtain ⟨sz, lo, hi⟩ := p
      have := leadInfo_some c sz lo hi hl
      have h1 : (1 : Nat) < sz := by omega
      simp [DecodeRuneInString, h0, hl, h1, RuneError, IsSpace]

theorem digitByte_decimal (d : Nat) (h : d < 10) :
    digitByte d ≠ 0x2B ∧ digitByte d ≠ 0x2D ∧ IsLetter (digitByte d) = false := by
  unfold digitByte IsLetter
  simp only [h, if_true]
  simp only [Bool.decide_or, Bool.decide_and, Bool.or_eq_false_iff, Bool.and_eq_false_iff,
    decide_eq_false_iff_not]
  omega

theorem FormatInt_spec (n : Int) (h1 : -(2 : Int) ^ 63 ≤ n) (h2 : n < (2 : Int) ^ 63) :
    FormatInt n 10 ≠ [] ∧ signedNumeral 10 (FormatInt n 10) = some n ∧
      whitespaceFree (FormatInt n 10) = true ∧ isSymType (FormatInt n 10) = false := by
  unfold FormatInt
  by_cases hneg : n < 0
  · simp only [hneg, if_true]
    obtain ⟨hne, hnum, hdig⟩ :=
      FormatUint_spec 10 (by norm_num) (by norm_num) (-n).toNat (by omega)
    refine ⟨by simp, ?_, ?_, ?_⟩
    · simp only [signedNumeral, hnum]
      simp
      omega
    · apply noSpaceLoop_ascii
      intro b hb
      rcases List.mem_cons.mp hb with rfl | hb
      · exact ⟨by norm_num, by decide⟩
      · obtain ⟨d, hd, rfl⟩ := hdig b hb
        exact digitByte_plain d (by omega)
    · cases hds : FormatUint (-n).toNat 10 with
      | nil => exact absurd hds hne
      | cons b bs => simp [isSymType]
  · simp only [hneg, if_false]
    obtain ⟨hne, hnum, hdig⟩ :=
      FormatUint_spec 10 (by norm_num) (by norm_num) n.toNat (by omega)
    refine ⟨hne, ?_, whitespaceFree_digits 10 (by norm_num) _ hdig, ?_⟩
    · cases hds : FormatUint n.toNat 10 with
      | nil => exact absurd hds hne
      | cons b bs =>
        obtain ⟨d, hd, rfl⟩ := hdig b (by simp [hds])
        have := digitByte_decimal d hd
        rw [hds] at hnum
        simp only [signedNumeral, this.1, this.2.1, if_false, hnum]
        simp
        omega
    · cases hds : FormatUint n.toNat 10 with
      | nil => exact absurd hds hne
      | cons b bs =>
        obtain ⟨d, hd, rfl⟩ := hdig b (by simp [hds])
        cases bs with
        | nil => simpa [isSymType] using (digitByte_decimal d hd).2.2
        | cons b2 bs => simp [isSymType]

theorem Fields_addrLine (a : Nat) (n : Int) (c : Nat) (name : GoString)
    (ha : a < 2 ^ 64) (h1 : -(2 : Int) ^ 63 ≤ n) (h2 : n < (2 : Int) ^ 63)
    (hc : IsLetter c = true) (hname : whitespaceFree name = true) :
    Fields (addrLine a n c name) =
      FormatUint a 16 :: FormatInt n 10 :: [c] :: (if name = [] then [] else [name]) := by
  obtain ⟨hne, -, hdig⟩ := FormatUint_spec 16 (by norm_num) (by norm_num) a ha
  obtain ⟨hne2, -, hws2, -⟩ := FormatInt_spec n h1 h2
  unfold addrLine
  rw [Fields_token _ _ hne (whitespaceFree_digits 16 (by norm_num) _ hdig),
    Fields_token _ _ hne2 hws2,
    Fields_token _ _ (by simp) (whitespaceFree_letter c hc),
    Fields_last _ hname]

theorem parseLine_addrLine_eq (a : Nat) (n : Int) (c : Nat) (name : GoString)
    (ha : a < 2 ^ 64) (h1 : -(2 : Int) ^ 63 ≤ n) (h2 : n < (2 : Int) ^ 63)
    (hc : IsLetter c = true) (hname : whitespaceFree name = true) :
    ∃ sym, parseLine (addrLine a n c name) = .ok sym ∧ sym.Addr = a ∧
      sym.Size = (if n = 4294967296 then 0 else n) ∧ sym.QualifiedName = name := by
  have hf := Fields_addrLine a n c name ha h1 h2 hc hname
  obtain ⟨-, hnum, -⟩ := FormatUint_spec 16 (by norm_num) (by norm_num) a ha
  obtain ⟨-, hsn, -, hst⟩ := FormatInt_spec n h1 h2
  have hpu : ParseUint (FormatUint a 16) 16 = (a, none) :=
    (ParseUint_ok_iff 16 (by norm_num) _ a).mpr ⟨hnum, ha⟩
  have hpi : ParseInt (FormatInt n 10) 10 = (n, none) :=
    (ParseInt_ok_iff 10 (by norm_num) _ n).mpr ⟨hsn, h1, h2⟩
  have hsym : isSymType [c] = true := by simpa [isSymType] using hc
  have hq : (if name = [] then ([] : List GoString) else [name]).headD [] = name := by
    split_ifs with hn
    · simp [hn]
    · simp
  rw [parseLine_addr _ _ _ _ _ hf hst hsym, hpu, hpi]
  simp only [hq]
  obtain ⟨r, hr⟩ := finish_ok name
    { Addr := a, Size := (if n = 4294967296 then 0 else n),
      Code := (if TrimSpace [c] ≠ [] then (DecodeRuneInString (TrimSpace [c])).1 else 0),
      QualifiedName := name,
      Info := Join ((if name = [] then ([] : List GoString) else [name]).drop 1) [0x20],
      Path := [], Name := [] }
  refine ⟨r, hr, ?_⟩
  by_cases hn : name = []
  · rw [if_pos hn] at hr
    cases hr
    exact ⟨rfl, rfl, rfl⟩
  · rw [if_neg hn] at hr
    obtain ⟨e1, e2, -, e4, -⟩ := splitName_fields _ _ hr
    exact ⟨e1, e2, e4⟩

/-! ## The scan loop of `ParseBinary` -/

theorem keepSym_eq_listed (r : Sym) : keepSym r = listed r := by
  unfold keepSym listed
  cases hp : r.Path with
  | nil => by_cases hq : r.QualifiedName = [] <;> simp [hq]
  | cons seg rest =>
    by_cases hq : r.QualifiedName = [] <;>
      cases h1 : HasPrefix seg (ofString "go.itab.") <;>
      cases h2 : HasPrefix seg (ofString "type..") <;> simp [hq, h1, h2]

theorem decode_append_cr (u : GoString) (hu : u ≠ []) :
    DecodeRuneInString (u ++ [0x0D]) = DecodeRuneInString u := by
  rcases u with _ | ⟨b0, _ | ⟨b1, _ | ⟨b2, _ | ⟨b3, u⟩⟩⟩⟩
  · exact absurd rfl hu
  all_goals
    by_cases h0 : b0 < 0x80
    · simp [DecodeRuneInString, h0]
    · cases hl : leadInfo b0 with
      | none => simp [DecodeRuneInString, h0, hl]
      | some p =>
        obtain ⟨sz, lo, hi⟩ := p
        have := leadInfo_some b0 sz lo hi hl
        simp only [DecodeRuneInString, List.cons_append, List.nil_append, h0, if_false, hl,
          List.length_cons, List.length_append, List.length_nil]
        split_ifs <;> first | rfl | omega

theorem fieldsLoop_append_cr (t : GoString) (skip : Nat) (cur : Option GoString)
    (hs : skip ≤ t.length) :
    fieldsLoop (t ++ [0x0D]) skip cur = fieldsLoop t skip cur := by
  induction t generalizing skip cur with
  | nil =>
    have : skip = 0 := by simpa using hs
    subst this
    cases cur <;> simp [fieldsLoop, DecodeRuneInString, IsSpace]
  | cons b t ih =>
    cases skip with
    | succ k =>
      show fieldsLoop (b :: (t ++ [0x0D])) (k + 1) cur = _
      cases cur with
      | none => simp only [fieldsLoop]; exact ih k none (by simpa using hs)
      | some c => simp only [fieldsLoop]; exact ih k _ (by simpa using hs)
    | zero =>
      have hd := decode_append_cr (b :: t) (by simp)
      simp only [List.cons_append] at hd
      have hw := decode_width_le (b :: t)
      have hk : (DecodeRuneInString (b :: t)).2 - 1 ≤ t.length := by
        simp only [List.length_cons] at hw; omega
      show fieldsLoop (b :: (t ++ [0x0D])) 0 cur = _
      simp only [fieldsLoop, hd]
      split_ifs
      · cases cur with
        | none => exact ih _ none hk
        | some c => simp only []; rw [ih _ none hk]
      · exact ih _ _ hk

theorem dropCR_cases (l : GoString) : dropCR l = l ∨ l = dropCR l ++ [0x0D] := by
  unfold dropCR
  split_ifs with h
  · exact Or.inr (List.dropLast_append_getLast? _ h).symm
  · exact Or.inl rfl

/-- The tokens of a line do not depend on its final carriage return. -/
theorem Fields_dropCR (l : GoString) : Fields (dropCR l) = Fields l := by
  rcases dropCR_cases l with h | h
  · rw [h]
  · conv_rhs => rw [h]
    unfold Fields
    exact (fieldsLoop_append_cr _ 0 none (Nat.zero_le _)).symm

theorem parseLine_congr (s1 s2 : GoString) (h : Fields s1 = Fields s2) :
    parseLine s1 = parseLine s2 := by
  unfold parseLine
  rw [h]

/-- The record of a line does not depend on its final carriage return. -/
theorem parseLine_dropCR (l : GoString) : parseLine (dropCR l) = parseLine l :=
  parseLine_congr _ _ (Fields_dropCR l)

theorem scanLoop_ok (lines : List GoString) (recs : List Sym)
    (h : List.Forall₂ (fun l r => parseLine l = .ok r) lines recs)
    (hlen : ∀ l ∈ lines, l.length < MaxScanTokenSize) (acc : List Sym) :
    scanLoop none lines acc = (acc ++ recs.filter keepSym, none) := by
  induction h generalizing acc with
  | nil => simp [scanLoop]
  | @cons l r ls rs hl _ ih =>
    have h1 : ¬ l.length ≥ MaxScanTokenSize := by
      have := hlen l (by simp); omega
    have ih' := ih (fun x hx => hlen x (by simp [hx]))
    simp only [scanLoop, h1, if_false, parseLine_dropCR, hl]
    by_cases hk : keepSym r = true
    · simp [hk, ih', List.filter_cons]
    · simp [hk, ih', List.filter_cons]

theorem scanLoop_error (readErr : Option ScanError) (lines : List GoString)
    (h : ∃ l ∈ lines, ∃ e, parseLine l = .error e) (acc : List Sym) :
    ∃ e, scanLoop readErr lines acc = ([], some e) := by
  induction lines generalizing acc with
  | nil => simp at h
  | cons l ls ih =>
    by_cases h1 : l.length ≥ MaxScanTokenSize
    · exact ⟨.scanningFailed .errTooLong, by simp only [scanLoop, h1, if_true]⟩
    · cases hl : parseLine l with
      | error e =>
        exact ⟨.failedToParse e, by simp only [scanLoop, h1, if_false, parseLine_dropCR, hl]⟩
      | ok r =>
        have h2 : ∃ l2 ∈ ls, ∃ e, parseLine l2 = .error e := by
          obtain ⟨l2, hmem, e, he⟩ := h
          rcases List.mem_cons.mp hmem with rfl | hmem
          · rw [hl] at he; cases he
          · exact ⟨l2, hmem, e, he⟩
        simp only [scanLoop, h1, if_false, parseLine_dropCR, hl]
        split
        · exact ih h2 _
        · exact ih h2 _

theorem scanLoop_cons_long (readErr : Option ScanError) (line : GoString)
    (rest : List GoString) (syms : List Sym) (h : line.length ≥ MaxScanTokenSize) :
    scanLoop readErr (line :: rest) syms = ([], some (.scanningFailed .errTooLong)) := by
  simp only [scanLoop, h, if_true]

theorem scanLoop_cons_keep (readErr : Option ScanError) (line : GoString)
    (rest : List GoString) (syms : List Sym) (sym : Sym)
    (h : line.length < MaxScanTokenSize) (hp : parseLine line = .ok sym)
    (hk : keepSym sym = true) :
    scanLoop readErr (line :: rest) syms = scanLoop readErr rest (syms ++ [sym]) := by
  have h1 : ¬ line.length ≥ MaxScanTokenSize := by omega
  simp only [scanLoop, h1, if_false, parseLine_dropCR, hp, hk, if_true]

/-! ## The edge loop of `Execute` -/

theorem importLoop_eq (result : Result) (src : Package) (imps : List GoString)
    (out : List GoString) :
    importLoop result src imps out =
      out ++ (imps.filter fun dst => (result dst).isSome).map (edgeLine src.ID) := by
  induction imps generalizing out with
  | nil => simp [importLoop]
  | cons dst rest ih =>
    simp only [importLoop]
    by_cases h : (result dst).isSome = true
    · simp [h, ih, List.filter_cons]
    · simp [h, ih, List.filter_cons]

theorem edgeLoop_eq (result : Result) (pkgs : List Package) (out : List GoString) :
    edgeLoop result pkgs out =
      out ++ pkgs.flatMap fun src =>
        (src.Imports.filter fun dst => (result dst).isSome).map (edgeLine src.ID) := by
  induction pkgs generalizing out with
  | nil => simp [edgeLoop]
  | cons src rest ih =>
    simp only [edgeLoop, ih, importLoop_eq, List.flatMap_cons, List.append_assoc]

/-! ## Evaluation of the parser on concrete lines -/

theorem parseLine_scenario1 :
    parseLine (ofString "0000000000401000 T main.main") =
      .ok { Addr := 0, Size := 401000, Code := 0x54, QualifiedName := ofString "main.main",
            Info := [], Path := [ofString "main"], Name := ofString "main" } := by
  rfl

set_option maxRecDepth 100000 in
theorem parseLine_scenario2 :
    parseLine (ofString "16 T example.com/mod/pkg.Func(int)") =
      .ok { Addr := 0, Size := 16, Code := 0x54,
            QualifiedName := ofString "example.com/mod/pkg.Func(int)", Info := [],
            Path := [ofString "example.com", ofString "mod", ofString "pkg"],
            Name := ofString "Func(int)" } := by
  rfl

set_option maxRecDepth 100000 in
theorem parseLine_sampleLine : parseLine sampleLine = .ok sampleSym := by
  rfl

theorem parseLine_slashLine : parseLine slashLine = .ok slashSym := by
  rfl

set_option maxRecDepth 100000 in
theorem ParseBinary_syntheticLines :
    ParseBinary syntheticLines none = (syntheticSyms, none) := by
  rfl

set_option maxRecDepth 100000 in
theorem parseLine_sentinelLine :
    parseLine (addrLine 0 4294967296 0x54 (ofString "x")) =
      .ok { Addr := 0, Size := 0, Code := 0x54, QualifiedName := ofString "x", Info := [],
            Path := [], Name := ofString "x" } := by
  rfl

theorem parseLine_badLine : parseLine (ofString "bad line") = .error .invalidSymText := by
  rfl

theorem parseLine_sampleLine2 : parseLine sampleLine2 = .ok sampleSym2 := by
  rfl

set_option maxRecDepth 100000 in
theorem parseLine_mixedLines :
    List.Forall₂ (fun l r => parseLine l = .ok r) mixedLines mixedSyms :=
  List.Forall₂.cons parseLine_sampleLine
    (List.Forall₂.cons (by rfl)
      (List.Forall₂.cons (by rfl)
        (List.Forall₂.cons (by rfl) (List.Forall₂.cons parseLine_slashLine .nil))))

theorem parseLine_longLine : ∃ sym, parseLine longLine = .ok sym := by
  have hws : whitespaceFree (List.replicate 65536 0x61) = true := by
    apply noSpaceLoop_ascii
    intro b hb
    rw [List.eq_of_mem_replicate hb]
    exact ⟨by norm_num, by decide⟩
  obtain ⟨sym, h, -⟩ := parseLine_addrLine_eq 255 16 0x54 (List.replicate 65536 0x61)
    (by norm_num) (by norm_num) (by norm_num) (by decide) hws
  exact ⟨sym, h⟩

theorem addrLine_length_ge (a : Nat) (n : Int) (c : Nat) (name : GoString) :
    name.length ≤ (addrLine a n c name).length := by
  unfold addrLine
  simp only [List.length_append, List.length_cons]
  omega

theorem longLine_length : longLine.length ≥ MaxScanTokenSize := by
  have h := addrLine_length_ge 255 16 0x54 (List.replicate 65536 0x61)
  rw [List.length_replicate] at h
  exact h

theorem ParseBinary_longLine :
    ParseBinary [sampleLine, longLine] none = ([], some (.scanningFailed .errTooLong)) := by
  unfold ParseBinary
  rw [scanLoop_cons_keep none sampleLine [longLine] [] sampleSym (by decide)
    parseLine_sampleLine (by decide)]
  exact scanLoop_cons_long none longLine [] _ longLine_length

/-! ## The claims -/

/-- C1, as amended. `parseLine` applied to the line `0000000000401000 T main.main` returns a
record with address 0, size 401000 (token 1 is a single letter, so that token 0 is read as
the decimal size), code `T`, path `["main"]` and local name `main`. -/
theorem parseLine_main_main :
    parseLine (ofString "0000000000401000 T main.main") =
      .ok { Addr := 0, Size := 401000, Code := 0x54, QualifiedName := ofString "main.main",
            Info := [], Path := [ofString "main"], Name := ofString "main" } :=
  parseLine_scenario1

/-- C1, as stated, fails: no record returned for the line `0000000000401000 T main.main` has
address 0x401000 and size 0. -/
theorem parseLine_main_main_counterexample :
    ¬ ∃ sym, parseLine (ofString "0000000000401000 T main.main") = .ok sym ∧
      sym.Addr = 0x401000 ∧ sym.Size = 0 ∧ sym.Code = 0x54 ∧
      sym.Path = [ofString "main"] ∧ sym.Name = ofString "main" := by
  rintro ⟨sym, h, ha, -⟩
  rw [parseLine_scenario1] at h
  cases h
  simp at ha

/-- C2, as amended. `parseLine` applied to the line `16 T example.com/mod/pkg.Func(int)`
returns a record with size 16, code `T`, path `["example.com", "mod", "pkg"]` and local name
`Func(int)`: the signature suffix is skipped when the split point is located, and it stays
in the local name. -/
theorem parseLine_pkg_func :
    parseLine (ofString "16 T example.com/mod/pkg.Func(int)") =
      .ok { Addr := 0, Size := 16, Code := 0x54,
            QualifiedName := ofString "example.com/mod/pkg.Func(int)", Info := [],
            Path := [ofString "example.com", ofString "mod", ofString "pkg"],
            Name := ofString "Func(int)" } :=
  parseLine_scenario2

/-- C2, as stated, fails: no record returned for the line
`16 T example.com/mod/pkg.Func(int)` has the local name `Func`. -/
theorem parseLine_pkg_func_counterexample :
    ¬ ∃ sym, parseLine (ofString "16 T example.com/mod/pkg.Func(int)") = .ok sym ∧
      sym.Size = 16 ∧ sym.Code = 0x54 ∧
      sym.Path = [ofString "example.com", ofString "mod", ofString "pkg"] ∧
      sym.Name = ofString "Func" := by
  rintro ⟨sym, h, -, -, -, hn⟩
  rw [parseLine_scenario2] at h
  cases h
  revert hn
  decide

/-- C3, as amended. For every line that `parseLine` accepts with a non-empty qualified name
`q`, exactly one of the following holds: (a) `Path` is empty and `Name = q`; or (b) `Path` is
non-empty and `q = join(Path, "/") + c + Name` exactly, signature suffix included, where the
separator `c` is `.`, or is `/` when `q` has no `.` between the split point and its first
`(`. -/
theorem parseLine_name_split (s : GoString) (sym : Sym) (h : parseLine s = .ok sym)
    (hq : sym.QualifiedName ≠ []) :
    Xor' (sym.Path = [] ∧ sym.Name = sym.QualifiedName)
      (sym.Path ≠ [] ∧
        (sym.QualifiedName = Join sym.Path [0x2F] ++ 0x2E :: sym.Name ∨
          (sym.QualifiedName = Join sym.Path [0x2F] ++ 0x2F :: sym.Name ∧
            0x2E ∉ (beforeSignature sym.QualifiedName).drop (Join sym.Path [0x2F]).length))) := by
  obtain ⟨t0, t1, t2, rest, -, -, hn⟩ := parseLine_ok_inv s sym h
  rcases hn with ⟨hq0, -⟩ | ⟨-, hsplit⟩
  · exact absurd hq0 hq
  · obtain ⟨path, name, hs, hspec⟩ := splitName_spec { sym with Path := [], Name := [] }
    rw [hs] at hsplit
    have hp : sym.Path = path := by rw [← Except.ok.inj hsplit]
    have hnm : sym.Name = name := by rw [← Except.ok.inj hsplit]
    simp only [] at hspec
    rw [← hp, ← hnm] at hspec
    rcases hspec with ⟨h1, h2⟩ | ⟨h1, h2⟩
    · exact Or.inl ⟨⟨h1, h2⟩, fun hc => hc.1 h1⟩
    · exact Or.inr ⟨⟨h1, h2⟩, fun hc => h1 hc.1⟩

/-- The amended C3 at the sample line, whose name `pkg/sub.Fn` is split at its `.`. -/
theorem parseLine_name_split_witness :
    parseLine sampleLine = .ok sampleSym ∧ sampleSym.QualifiedName ≠ [] ∧
    Xor' (sampleSym.Path = [] ∧ sampleSym.Name = sampleSym.QualifiedName)
      (sampleSym.Path ≠ [] ∧
        (sampleSym.QualifiedName = Join sampleSym.Path [0x2F] ++ 0x2E :: sampleSym.Name ∨
          (sampleSym.QualifiedName = Join sampleSym.Path [0x2F] ++ 0x2F :: sampleSym.Name ∧
            0x2E ∉ (beforeSignature sampleSym.QualifiedName).drop
              (Join sampleSym.Path [0x2F]).length))) :=
  ⟨parseLine_sampleLine, by decide,
    parseLine_name_split sampleLine sampleSym parseLine_sampleLine (by decide)⟩

/-- C3, as stated, fails on the line `1 T a/b`: the record has the non-empty qualified name
`a/b`, `Path = ["a"]` and `Name = "b"`, so that (a) fails, and `join(Path, "/") + "." + Name`
is `a.b`, which differs from `a/b` also up to a signature suffix, so that (b) fails. -/
theorem parseLine_name_split_counterexample :
    parseLine slashLine = .ok slashSym ∧ slashSym.QualifiedName ≠ [] ∧
    ¬ (slashSym.Path = [] ∧ slashSym.Name = slashSym.QualifiedName) ∧
    ¬ (slashSym.Path ≠ [] ∧
        beforeSignature slashSym.QualifiedName =
          beforeSignature (Join slashSym.Path [0x2F] ++ 0x2E :: slashSym.Name)) ∧
    ¬ (slashSym.Path ≠ [] ∧
        slashSym.QualifiedName = Join slashSym.Path [0x2F] ++ 0x2E :: slashSym.Name) :=
  ⟨parseLine_slashLine, by decide, by decide, by decide, by decide⟩

/-- C4, at the failing input. The scan loop keeps the records of the lines
`4b2c40 32 R go.itab.*os.File,io.Reader` and `4a1f00 8 R type..eq.[2]string`, whose
qualified names begin with `go.itab.` and `type..`: their first path segments are `go` and
`type`, which the test of the loop lets through. -/
theorem ParseBinary_keeps_synthetic :
    ParseBinary syntheticLines none = (syntheticSyms, none) ∧
      (∀ r ∈ syntheticSyms,
        HasPrefix r.QualifiedName (ofString "go.itab.") = true ∨
          HasPrefix r.QualifiedName (ofString "type..") = true) :=
  ⟨ParseBinary_syntheticLines, by decide⟩

/-- C5. `parseLine` returns an error exactly on the rejected lines: those with fewer than
three tokens, those with a single letter neither at token 1 nor at token 2, those in the
layout with address whose token 0 is no base-16 numeral that fits an unsigned 64-bit
integer, and those whose size token is no base-10 numeral that fits a signed 64-bit
integer.  On every other line it returns a record; it never panics. -/
theorem parseLine_error_iff (s : GoString) :
    ((∃ e, parseLine s = .error e ∧ e ≠ .panicked) ↔ rejected (Fields s)) ∧
      ((∃ sym, parseLine s = .ok sym) ↔ ¬ rejected (Fields s)) := by
  rcases parseLine_result s with ⟨hr, e, he, hne⟩ | ⟨hr, sym, hs⟩
  · refine ⟨⟨fun _ => hr, fun _ => ⟨e, he, hne⟩⟩, ⟨?_, fun h => absurd hr h⟩⟩
    rintro ⟨sym, hs⟩
    rw [he] at hs; cases hs
  · refine ⟨⟨?_, fun h => absurd h hr⟩, ⟨fun _ => hr, fun _ => ⟨sym, hs⟩⟩⟩
    rintro ⟨e, he, -⟩
    rw [hs] at he; cases he

/-- C6. For every line with at least three tokens that `parseLine` accepts: if token 1 is a
single letter (whatever token 2 is), `Addr` is 0, `Size` is what the decimal numeral token 0
denotes (4294967296 being stored as 0), `QualifiedName` is token 2 and `Info` is the tokens
from token 3 on joined by single spaces; otherwise token 2 is a single letter, `Addr` is
what the hexadecimal numeral token 0 denotes, `Size` is read from token 1, `QualifiedName`
is token 3 (empty when absent) and `Info` is the tokens from token 4 on joined by single
spaces. -/
theorem parseLine_layout (s : GoString) (sym : Sym) (h : parseLine s = .ok sym) :
    3 ≤ (Fields s).length ∧
    (isSymType (token (Fields s) 1) = true →
      sym.Addr = 0 ∧
      (∃ n, signedNumeral 10 (token (Fields s) 0) = some n ∧
        sym.Size = if n = 4294967296 then 0 else n) ∧
      sym.QualifiedName = token (Fields s) 2 ∧
      sym.Info = Join ((Fields s).drop 3) [0x20]) ∧
    (isSymType (token (Fields s) 1) = false →
      isSymType (token (Fields s) 2) = true ∧
      numeral 16 (token (Fields s) 0) = some sym.Addr ∧
      (∃ n, signedNumeral 10 (token (Fields s) 1) = some n ∧
        sym.Size = if n = 4294967296 then 0 else n) ∧
      sym.QualifiedName = token (Fields s) 3 ∧
      sym.Info = Join ((Fields s).drop 4) [0x20]) := by
  obtain ⟨t0, t1, t2, rest, hf, hl, -⟩ := parseLine_ok_inv s sym h
  rw [hf]
  refine ⟨by simp, ?_⟩
  rcases hl with ⟨h1, ha, ⟨n, hn, hs⟩, hq, hi⟩ | ⟨h1, h2, ha, ⟨n, hn, hs⟩, hq, hi⟩
  · refine ⟨fun _ => ⟨ha, ⟨n, ?_, hs⟩, by simpa [token] using hq, by simpa using hi⟩, ?_⟩
    · exact ((ParseInt_ok_iff 10 (by norm_num) t0 n).mp hn).1
    · intro hc; simp [token, h1] at hc
  · refine ⟨fun hc => by simp [token, h1] at hc, fun _ => ⟨by simpa [token] using h2, ?_,
      ⟨n, ?_, hs⟩, ?_, by simpa using hi⟩⟩
    · exact ((ParseUint_ok_iff 16 (by norm_num) t0 _).mp ha).1
    · exact ((ParseInt_ok_iff 10 (by norm_num) t1 n).mp hn).1
    · cases rest <;> simpa [token] using hq

/-- C6 at the sample line, which is in the layout with address. -/
theorem parseLine_layout_witness :
    parseLine sampleLine = .ok sampleSym ∧
    (isSymType (token (Fields sampleLine) 1) = false →
      isSymType (token (Fields sampleLine) 2) = true ∧
      numeral 16 (token (Fields sampleLine) 0) = some sampleSym.Addr ∧
      (∃ n, signedNumeral 10 (token (Fields sampleLine) 1) = some n ∧
        sampleSym.Size = if n = 4294967296 then 0 else n) ∧
      sampleSym.QualifiedName = token (Fields sampleLine) 3 ∧
      sampleSym.Info = Join ((Fields sampleLine).drop 4) [0x20]) :=
  ⟨parseLine_sampleLine,
    (parseLine_layout sampleLine sampleSym parseLine_sampleLine).2.2⟩

/-- C7. For every line that `parseLine` accepts, the size token is a decimal numeral of some
value `n`; the record has `Size = 0` when `n = 4294967296` and `Size = n` otherwise, so that
no record has `Size = 4294967296`. -/
theorem parseLine_size_sentinel (s : GoString) (sym : Sym) (h : parseLine s = .ok sym) :
    ∃ n, signedNumeral 10 (sizeToken (Fields s)) = some n ∧
      (n = 4294967296 → sym.Size = 0) ∧ (n ≠ 4294967296 → sym.Size = n) ∧
      sym.Size ≠ 4294967296 := by
  obtain ⟨t0, t1, t2, rest, hf, hl, -⟩ := parseLine_ok_inv s sym h
  rw [hf]
  rcases hl with ⟨h1, -, ⟨n, hn, hs⟩, -⟩ | ⟨h1, -, -, ⟨n, hn, hs⟩, -⟩
  · refine ⟨n, ?_, ?_, ?_, ?_⟩
    · simpa [sizeToken, token, h1] using ((ParseInt_ok_iff 10 (by norm_num) t0 n).mp hn).1
    · intro hc; simp [hs, hc]
    · intro hc; simp [hs, hc]
    · rw [hs]; split_ifs with hc
      · decide
      · exact hc
  · refine ⟨n, ?_, ?_, ?_, ?_⟩
    · simpa [sizeToken, token, h1] using ((ParseInt_ok_iff 10 (by norm_num) t1 n).mp hn).1
    · intro hc; simp [hs, hc]
    · intro hc; simp [hs, hc]
    · rw [hs]; split_ifs with hc
      · decide
      · exact hc

/-- C7 at the sample line, whose size token is `16`. -/
theorem parseLine_size_sentinel_witness :
    parseLine sampleLine = .ok sampleSym ∧
    ∃ n, signedNumeral 10 (sizeToken (Fields sampleLine)) = some n ∧
      (n = 4294967296 → sampleSym.Size = 0) ∧ (n ≠ 4294967296 → sampleSym.Size = n) ∧
      sampleSym.Size ≠ 4294967296 :=
  ⟨parseLine_sampleLine, parseLine_size_sentinel sampleLine sampleSym parseLine_sampleLine⟩

/-- C8, as amended. For every unsigned 64-bit address `a`, every signed 64-bit size `n`,
every single-letter type `c` and every whitespace-free name token, parsing the line formed
from `a` written in hexadecimal, `n` written in decimal, `c` and the name succeeds and
returns a record whose `Addr` is `a` and whose `Size` is `n`, except that the size
4294967296 is returned as 0. -/
theorem parseLine_addrLine (a : Nat) (n : Int) (c : Nat) (name : GoString)
    (ha : a < 2 ^ 64) (h1 : -(2 : Int) ^ 63 ≤ n) (h2 : n < (2 : Int) ^ 63)
    (hc : isSymType [c] = true) (hname : whitespaceFree name = true) :
    ∃ sym, parseLine (addrLine a n c name) = .ok sym ∧ sym.Addr = a ∧
      sym.Size = (if n = 4294967296 then 0 else n) ∧ sym.QualifiedName = name :=
  parseLine_addrLine_eq a n c name ha h1 h2 (by simpa [isSymType] using hc) hname

/-- The amended C8 at the address 255, the size -16, the type `T` and the name `pkg.Fn`. -/
theorem parseLine_addrLine_witness :
    (255 : Nat) < 2 ^ 64 ∧ -(2 : Int) ^ 63 ≤ -16 ∧ (-16 : Int) < (2 : Int) ^ 63 ∧
    isSymType [0x54] = true ∧ whitespaceFree (ofString "pkg.Fn") = true ∧
    ∃ sym, parseLine (addrLine 255 (-16) 0x54 (ofString "pkg.Fn")) = .ok sym ∧ sym.Addr = 255 ∧
      sym.Size = (if (-16 : Int) = 4294967296 then 0 else -16) ∧
      sym.QualifiedName = ofString "pkg.Fn" :=
  ⟨by norm_num, by norm_num, by norm_num, by decide, by decide,
    parseLine_addrLine 255 (-16) 0x54 (ofString "pkg.Fn") (by norm_num) (by norm_num)
      (by norm_num) (by decide) (by decide)⟩

/-- C8, as stated, fails at the address 0, the size 4294967296, the type `T` and the name
`x`: the line parses, and the record has `Size = 0`, not 4294967296. -/
theorem parseLine_addrLine_counterexample :
    (0 : Nat) < 2 ^ 64 ∧ -(2 : Int) ^ 63 ≤ 4294967296 ∧ (4294967296 : Int) < (2 : Int) ^ 63 ∧
    isSymType [0x54] = true ∧ whitespaceFree (ofString "x") = true ∧
    ¬ ∃ sym, parseLine (addrLine 0 4294967296 0x54 (ofString "x")) = .ok sym ∧
      sym.Addr = 0 ∧ sym.Size = 4294967296 := by
  refine ⟨by norm_num, by norm_num, by norm_num, by decide, by decide, ?_⟩
  rintro ⟨sym, h, -, hs⟩
  rw [parseLine_sentinelLine] at h
  cases h
  simp at hs

/-- C9. If `parseLine` fails on any line of the list, the scan loop of `ParseBinary`
returns an error and the nil list, however many earlier lines parsed and however the read
of the stream ends: an error never comes with a list of the records parsed so far. -/
theorem ParseBinary_aborts (lines : List GoString) (readErr : Option ScanError)
    (h : ∃ l ∈ lines, ∃ e, parseLine l = .error e) :
    ∃ e, ParseBinary lines readErr = ([], some e) :=
  scanLoop_error readErr lines h []

/-- C9 at a list of two lines whose second line has two tokens only. -/
theorem ParseBinary_aborts_witness :
    (∃ l ∈ [sampleLine, ofString "bad line"], ∃ e, parseLine l = .error e) ∧
    ∃ e, ParseBinary [sampleLine, ofString "bad line"] none = ([], some e) :=
  ⟨⟨ofString "bad line", by simp, Fault.invalidSymText, parseLine_badLine⟩,
    ParseBinary_aborts [sampleLine, ofString "bad line"] none
      ⟨ofString "bad line", by simp, Fault.invalidSymText, parseLine_badLine⟩⟩

/-- C10, as amended. When every line parses, every line is shorter than the 65536 bytes of
the largest buffer of the scanner and the read of the stream ends without error, the scan
loop of `ParseBinary` returns, without error, exactly the parsed records, in input order,
whose `QualifiedName` is non-empty and whose first path segment, when `Path` is non-empty,
starts with neither `go.itab.` nor `type..`: the list of the parsed records filtered by
that test. -/
theorem ParseBinary_lists (lines : List GoString) (recs : List Sym)
    (h : List.Forall₂ (fun l r => parseLine l = .ok r) lines recs)
    (hlen : ∀ l ∈ lines, l.length < MaxScanTokenSize) :
    ParseBinary lines none = (recs.filter listed, none) := by
  have hk : keepSym = listed := funext keepSym_eq_listed
  simp [ParseBinary, scanLoop_ok lines recs h hlen, hk]

/-- The amended C10 at a list of five lines, of which the loop drops three: one without
name, one of an interface method table and one of a type descriptor. -/
theorem ParseBinary_lists_witness :
    List.Forall₂ (fun l r => parseLine l = .ok r) mixedLines mixedSyms ∧
    (∀ l ∈ mixedLines, l.length < MaxScanTokenSize) ∧
    ParseBinary mixedLines none = (mixedSyms.filter listed, none) ∧
    mixedSyms.filter listed = [sampleSym, slashSym] :=
  ⟨parseLine_mixedLines, by decide,
    ParseBinary_lists mixedLines mixedSyms parseLine_mixedLines (by decide), by decide⟩

/-- C10, as stated, fails on the list of the sample line and a line whose name alone has
65536 bytes: both lines parse, and the record of the first is one the claim lists, but the
scanner stops at the second line with `bufio.ErrTooLong` and the loop returns the nil list
with the error `scanning failed`. -/
theorem ParseBinary_lists_counterexample :
    (∃ recs, List.Forall₂ (fun l r => parseLine l = .ok r) [sampleLine, longLine] recs ∧
      ParseBinary [sampleLine, longLine] none ≠ (recs.filter listed, none)) ∧
    ParseBinary [sampleLine, longLine] none = ([], some (.scanningFailed .errTooLong)) := by
  have hrun := ParseBinary_longLine
  obtain ⟨sym, hsym⟩ := parseLine_longLine
  refine ⟨⟨[sampleSym, sym], ?_, ?_⟩, hrun⟩
  · exact List.Forall₂.cons parseLine_sampleLine (List.Forall₂.cons hsym .nil)
  · rw [hrun]
    intro hc
    have := congrArg Prod.snd hc
    simp at this

/-- C11. For any two lines that `parseLine` accepts and whose `QualifiedName` fields are
equal, the returned `Path` and `Name` are equal: they are a function of `QualifiedName`
alone, whatever the address, size, code and info of the lines. -/
theorem parseLine_name_function (s1 s2 : GoString) (r1 r2 : Sym)
    (h1 : parseLine s1 = .ok r1) (h2 : parseLine s2 = .ok r2)
    (hq : r1.QualifiedName = r2.QualifiedName) :
    r1.Path = r2.Path ∧ r1.Name = r2.Name := by
  obtain ⟨-, -, -, -, -, -, hn1⟩ := parseLine_ok_inv s1 r1 h1
  obtain ⟨-, -, -, -, -, -, hn2⟩ := parseLine_ok_inv s2 r2 h2
  rcases hn1 with ⟨hq1, hp1, hm1⟩ | ⟨hq1, hs1⟩
  · rcases hn2 with ⟨-, hp2, hm2⟩ | ⟨hq2, -⟩
    · rw [hp1, hp2, hm1, hm2]; exact ⟨rfl, rfl⟩
    · rw [← hq] at hq2; exact absurd hq1 hq2
  · rcases hn2 with ⟨hq2, -, -⟩ | ⟨-, hs2⟩
    · rw [hq] at hq1; exact absurd hq2 hq1
    · exact splitName_congr { r1 with Path := [], Name := [] } { r2 with Path := [], Name := [] }
        r1 r2 hq rfl hs1 hs2

/-- C11 at two lines of different layout, address, size, code and info that have the
qualified name `pkg/sub.Fn`. -/
theorem parseLine_name_function_witness :
    parseLine sampleLine = .ok sampleSym ∧ parseLine sampleLine2 = .ok sampleSym2 ∧
    sampleSym.QualifiedName = sampleSym2.QualifiedName ∧
    sampleSym.Path = sampleSym2.Path ∧ sampleSym.Name = sampleSym2.Name :=
  ⟨parseLine_sampleLine, parseLine_sampleLine2, rfl,
    parseLine_name_function sampleLine sampleLine2 sampleSym sampleSym2 parseLine_sampleLine
      parseLine_sampleLine2 rfl⟩

/-- C12. For every string `s`, `escapeID s` has exactly one character per code point of
`s` (per rune that `range` reads): each code point in `[A-Za-z0-9]` is kept at its position
and every other code point is replaced by `_`, so that every character of the result is in
`[A-Za-z0-9_]`; on the string of a literal the code points are its characters. -/
theorem escapeID_per_code_point (s : GoString) :
    escapeID s = (runes s).map escapeRune ∧ (escapeID s).length = (runes s).length ∧
      (∀ b ∈ escapeID s, isAlnum b = true ∨ b = 0x5F) ∧
      (∀ lit : String,
        escapeID (ofString lit) = lit.toList.map fun c => escapeRune c.toNat) := by
  refine ⟨escapeID_eq_map s, by rw [escapeID_eq_map]; simp, escapeID_safe s, ?_⟩
  intro lit
  rw [escapeID_eq_map, runes_ofString, List.map_map]
  rfl

/-- C13. The edge loop of `Execute` writes exactly one edge line per pair `(src, dst)` with
`src` in the sorted list, `dst` in the imports of `src` and the id of `dst` a key of the
result map, in the order of the sorted list and then of the imports; an import whose id is
no key of the map writes nothing, and the loop has no error. -/
theorem edgeLoop_lines (result : Result) (pkgs : List Package) :
    edgeLoop result pkgs [] =
      pkgs.flatMap fun src =>
        (src.Imports.filter fun dst => (result dst).isSome).map (edgeLine src.ID) := by
  rw [edgeLoop_eq]
  simp

/-- C14. `parseLine` returns a record with an empty `QualifiedName` exactly when the line
has exactly three tokens, token 1 is not a single letter, token 2 is a single letter, and
the address and size tokens parse; in that case `Path` is empty and `Name` is the empty
string. A line without tokens is rejected with an error. -/
theorem parseLine_empty_name (s : GoString) :
    ((∃ sym, parseLine s = .ok sym ∧ sym.QualifiedName = []) ↔
      ((Fields s).length = 3 ∧ isSymType (token (Fields s) 1) = false ∧
        isSymType (token (Fields s) 2) = true ∧ fitsUint64 (token (Fields s) 0) ∧
        fitsInt64 (token (Fields s) 1))) ∧
    (∀ sym, parseLine s = .ok sym → sym.QualifiedName = [] →
      sym.Path = [] ∧ sym.Name = []) ∧
    (Fields s = [] → parseLine s = .error .invalidSymText) := by
  refine ⟨⟨?_, ?_⟩, ?_, ?_⟩
  · rintro ⟨sym, h, hq⟩
    obtain ⟨t0, t1, t2, rest, hf, hl, -⟩ := parseLine_ok_inv s sym h
    rcases hl with ⟨-, -, -, hq2, -⟩ | ⟨h1, h2, ha, ⟨n, hn, -⟩, hq2, -⟩
    · have : t2 ≠ [] := Fields_ne_nil s t2 (by simp [hf])
      rw [hq] at hq2
      exact absurd hq2.symm this
    · have hrest : rest = [] := by
        cases rest with
        | nil => rfl
        | cons r rs =>
          have : r ≠ [] := Fields_ne_nil s r (by simp [hf])
          rw [hq] at hq2
          exact absurd hq2.symm this
      subst hrest
      rw [hf]
      refine ⟨rfl, by simpa [token] using h1, by simpa [token] using h2, ?_, ?_⟩
      · exact (ParseUint_none_iff_fits t0).mp (by rw [ha])
      · exact (ParseInt_none_iff t1).mp (by rw [hn])
  · rintro ⟨hlen, h1, h2, ha, hn⟩
    rcases hf : Fields s with _ | ⟨t0, _ | ⟨t1, _ | ⟨t2, _ | ⟨t3, rest⟩⟩⟩⟩
    · rw [hf] at hlen; simp at hlen
    · rw [hf] at hlen; simp at hlen
    · rw [hf] at hlen; simp at hlen
    · rw [hf] at h1 h2 ha hn
      simp only [token, List.getD_cons_succ, List.getD_cons_zero] at h1 h2 ha hn
      have hpa := (ParseUint_none_iff_fits t0).mpr ha
      have hpn := (ParseInt_none_iff t1).mpr hn
      rw [parseLine_addr s t0 t1 t2 [] hf h1 h2]
      rcases hu : ParseUint t0 16 with ⟨a, _ | e⟩
      · rcases hi : ParseInt t1 10 with ⟨n, _ | e⟩
        · simp
        · rw [hi] at hpn; cases hpn
      · rw [hu] at hpa; cases hpa
    · rw [hf] at hlen; simp at hlen
  · intro sym h hq
    obtain ⟨-, -, -, -, -, -, hn⟩ := parseLine_ok_inv s sym h
    rcases hn with ⟨-, hp, hm⟩ | ⟨hq2, -⟩
    · exact ⟨hp, hm⟩
    · exact absurd hq hq2
  · intro hf
    exact parseLine_short s (by simp [hf])

/-- C15. For every line that `parseLine` accepts with a non-empty qualified name `q`, with
`h` the part of `q` before its first `(`: `Path` is empty if and only if `h` has no `/` at
an index of 1 or more and `h` either has no `.` or begins with `.`; and whenever `Path` is
empty, `Name = q`. -/
theorem parseLine_path_empty_iff (s : GoString) (sym : Sym) (h : parseLine s = .ok sym)
    (hq : sym.QualifiedName ≠ []) :
    (sym.Path = [] ↔
      (0x2F ∉ (beforeSignature sym.QualifiedName).drop 1 ∧
        (0x2E ∉ beforeSignature sym.QualifiedName ∨
          (beforeSignature sym.QualifiedName).head? = some 0x2E))) ∧
    (sym.Path = [] → sym.Name = sym.QualifiedName) := by
  obtain ⟨-, -, -, -, -, -, hn⟩ := parseLine_ok_inv s sym h
  rcases hn with ⟨hq0, -⟩ | ⟨-, hs⟩
  · exact absurd hq0 hq
  · exact splitName_path_nil_iff { sym with Path := [], Name := [] } sym hs rfl

/-- C15 at the sample line, whose name `pkg/sub.Fn` has a `/` at index 3. -/
theorem parseLine_path_empty_iff_witness :
    parseLine sampleLine = .ok sampleSym ∧ sampleSym.QualifiedName ≠ [] ∧
    ((sampleSym.Path = [] ↔
      (0x2F ∉ (beforeSignature sampleSym.QualifiedName).drop 1 ∧
        (0x2E ∉ beforeSignature sampleSym.QualifiedName ∨
          (beforeSignature sampleSym.QualifiedName).head? = some 0x2E))) ∧
    (sampleSym.Path = [] → sampleSym.Name = sampleSym.QualifiedName)) :=
  ⟨parseLine_sampleLine, by decide,
    parseLine_path_empty_iff sampleLine sampleSym parseLine_sampleLine (by decide)⟩

/-- C16. For every line that `parseLine` accepts with a non-empty `Path`, with `h` the part
of the qualified name `q` before its first `(`: when the part of `h` after its last `/`
contains a `.`, `q = join(Path, "/") + "." + Name` exactly; otherwise
`q = join(Path, "/") + "/" + Name` exactly, `Name` up to its signature is that last part of
`h`, and `join(Path, "/")` is what precedes the last `/` of `h`. -/
theorem parseLine_separator (s : GoString) (sym : Sym) (h : parseLine s = .ok sym)
    (hp : sym.Path ≠ []) :
    (0x2E ∈ lastSegment (beforeSignature sym.QualifiedName) →
      sym.QualifiedName = Join sym.Path [0x2F] ++ 0x2E :: sym.Name) ∧
    (0x2E ∉ lastSegment (beforeSignature sym.QualifiedName) →
      sym.QualifiedName = Join sym.Path [0x2F] ++ 0x2F :: sym.Name ∧
      beforeSignature sym.Name = lastSegment (beforeSignature sym.QualifiedName) ∧
      beforeSignature sym.QualifiedName =
        Join sym.Path [0x2F] ++ 0x2F :: lastSegment (beforeSignature sym.QualifiedName)) := by
  obtain ⟨-, -, -, -, -, -, hn⟩ := parseLine_ok_inv s sym h
  rcases hn with ⟨-, hp0, -⟩ | ⟨-, hs⟩
  · exact absurd hp0 hp
  · exact splitName_separator { sym with Path := [], Name := [] } sym hs rfl hp

/-- C16 at the line `1 T a/b`, whose name has no `.` after its `/`. -/
theorem parseLine_separator_witness :
    parseLine slashLine = .ok slashSym ∧ slashSym.Path ≠ [] ∧
    (0x2E ∉ lastSegment (beforeSignature slashSym.QualifiedName) →
      slashSym.QualifiedName = Join slashSym.Path [0x2F] ++ 0x2F :: slashSym.Name ∧
      beforeSignature slashSym.Name = lastSegment (beforeSignature slashSym.QualifiedName) ∧
      beforeSignature slashSym.QualifiedName =
        Join slashSym.Path [0x2F] ++ 0x2F ::
          lastSegment (beforeSignature slashSym.QualifiedName)) :=
  ⟨parseLine_slashLine, by decide,
    (parseLine_separator slashLine slashSym parseLine_slashLine (by decide)).2⟩

/-- C17. `parseLine` is total. On a line of more than two tokens the accesses `tokens[1]`
and `tokens[2]` are in range; for every qualified name `q`,
`0 <= slashPos <= braceOff <= len(q)` and, when the split point `p = slashPos + pointOff`
is positive, `p < braceOff` and `p + 1 <= len(q)`, so that the slices `q[:braceOff]`,
`q[slashPos:braceOff]`, `q[:p]` and `q[p+1:]` are in bounds and the split of the name
returns a record; hence `parseLine` never panics and returns an error or a record. -/
theorem parseLine_total (s q : GoString) :
    (2 < (Fields s).length →
      (∃ t, index (Fields s) 1 = .ok t) ∧ ∃ t, index (Fields s) 2 = .ok t) ∧
    (0 ≤ slashPos q ∧ slashPos q ≤ braceOff q ∧ braceOff q ≤ (q.length : Int)) ∧
    (0 < slashPos q + pointOff q →
      slashPos q + pointOff q < braceOff q ∧
      slashPos q + pointOff q + 1 ≤ (q.length : Int)) ∧
    (∃ t, slice q 0 (braceOff q) = .ok t) ∧
    (∃ t, slice q (slashPos q) (braceOff q) = .ok t) ∧
    (0 < slashPos q + pointOff q →
      (∃ t, slice q 0 (slashPos q + pointOff q) = .ok t) ∧
      ∃ t, slice q (slashPos q + pointOff q + 1) (q.length : Int) = .ok t) ∧
    (∀ sym : Sym, sym.QualifiedName = q → ∃ r, splitName sym = .ok r) ∧
    parseLine s ≠ .error .panicked ∧
    ((∃ e, parseLine s = .error e) ∨ ∃ sym, parseLine s = .ok sym) := by
  obtain ⟨b, sp, k, hb, hsp, hk, hsple, hble, hlt, -⟩ :=
    splitName_offsets { Sym.zero with QualifiedName := q }
  simp only [] at hb hsp hk hble hlt
  rw [hb, hsp, hk]
  have hin : ∀ lo hi : Nat, lo ≤ hi → hi ≤ q.length →
      ∃ t, slice q (lo : Int) (hi : Int) = .ok t :=
    fun lo hi h1 h2 => ⟨_, slice_ok q lo hi h1 h2⟩
  refine ⟨?_, ⟨by omega, by omega, by omega⟩, ?_, ?_, hin sp b hsple hble, ?_, ?_, ?_, ?_⟩
  · intro hlen
    rcases hf : Fields s with _ | ⟨t0, _ | ⟨t1, _ | ⟨t2, rest⟩⟩⟩
    · rw [hf] at hlen; simp at hlen
    · rw [hf] at hlen; simp at hlen
    · rw [hf] at hlen; simp at hlen
    · exact ⟨⟨t1, by simp [index]⟩, ⟨t2, by simp [index]⟩⟩
  · intro hp
    have := hlt (by omega)
    omega
  · simpa using hin 0 b (by omega) hble
  · intro hp
    have := hlt (by omega)
    refine ⟨?_, ?_⟩
    · have := hin 0 (sp + k) (by omega) (by omega)
      simpa using this
    · have := hin (sp + k + 1) q.length (by omega) (le_refl _)
      simpa using this
  · intro sym hq
    obtain ⟨_, _, _, -, -, -, -, -, -, e⟩ := splitName_offsets sym
    exact ⟨_, e⟩
  · intro hc
    rcases parseLine_result s with ⟨-, e, he, hne⟩ | ⟨-, sym, hs⟩
    · rw [he] at hc
      exact hne (Except.error.inj hc)
    · rw [hs] at hc; cases hc
  · rcases parseLine_result s with ⟨-, e, he, -⟩ | ⟨-, sym, hs⟩
    · exact Or.inl ⟨e, he⟩
    · exact Or.inr ⟨sym, hs⟩

/-- C18. `escapeID` is idempotent, and it is the identity on the names whose characters
are all in `[A-Za-z0-9_]`. -/
theorem escapeID_idempotent (s : GoString) :
    escapeID (escapeID s) = escapeID s ∧
      ((∀ b ∈ s, isAlnum b = true ∨ b = 0x5F) → escapeID s = s) :=
  ⟨escapeID_of_safe (escapeID s) (escapeID_safe s), escapeID_of_safe s⟩

/-- C18 at the safe name `goda_pkg9`. -/
theorem escapeID_idempotent_witness :
    (∀ b ∈ ofString "goda_pkg9", isAlnum b = true ∨ b = 0x5F) ∧
    escapeID (ofString "goda_pkg9") = ofString "goda_pkg9" :=
  ⟨by decide, (escapeID_idempotent (ofString "goda_pkg9")).2 (by decide)⟩

/-- C19. `escapeID` is not injective on package ids: the distinct ids `a.b` and `a/b` have
the same node name `a_b`, and the node loop of `Execute` declares the two packages of a
result that has both under that one name, whatever their labels. -/
theorem escapeID_not_injective (quoted : Package → GoString) :
    ofString "a.b" ≠ ofString "a/b" ∧
    escapeID (ofString "a.b") = escapeID (ofString "a/b") ∧
    nodeLoop quoted clashPackages [] =
      [ofString "    a_b [label=" ++ quoted { ID := ofString "a.b", Imports := [] } ++
          ofString "];\n",
        ofString "    a_b [label=" ++ quoted { ID := ofString "a/b", Imports := [] } ++
          ofString "];\n"] := by
  refine ⟨by decide, by decide, ?_⟩
  simp only [clashPackages, nodeLoop, nodeLine, List.nil_append, List.cons_append]
  have e1 : escapeID (ofString "a.b") = ofString "a_b" := by decide
  have e2 : escapeID (ofString "a/b") = ofString "a_b" := by decide
  rw [e1, e2]
  rfl

end Goda
